import Mathlib

/-!
Verification of the shaderfrog-editor graph compiler (`src/graph.ts`) and input
strategy engine against its natural-language specification.

The TypeScript source is shallowly embedded: the mutable `EngineContext` and
the per-node ASTs are threaded as explicit state, `throw` becomes
`Except.error`, and the unbounded recursion of the compiler is given a fuel
parameter (the spec declares cyclic graphs undefined behaviour, §5).  The
external GLSL parsing library (`parse`, `generate`, `visit`, `renameBindings`,
`renameFunctions`, spec §6) and the `nodestuff` module, which is not under
`src/`, are modelled from the spec where needed; each such definition carries a
doc comment saying so.
-/

namespace Shaderfrog

/-- Shader stage of a node or compile pass (spec §3). -/
inductive ShaderStage where
  | fragment
  | vertex
deriving DecidableEq, Repr

/-- The node type tags used by the built-in parser table in `graph.ts`
(`ShaderType.output/shader/add/multiply`). -/
inductive ShaderType where
  | output
  | shader
  | add
  | multiply
deriving DecidableEq, Repr

/-- Rendering of a `ShaderType` for error messages (the TS enum values are
strings). -/
def ShaderType.str : ShaderType → String
  | .output => "output"
  | .shader => "shader"
  | .add => "add"
  | .multiply => "multiply"

mutual
/-- Expressions of the GLSL tree produced by the external parser.  Only the
constructors the compiler inspects are modelled: identifiers, left/right
binary nodes and function calls (`graph.ts` visits `identifier` and
`function_call` nodes and reads/writes the `right` field of binary and
assignment nodes).  Argument lists are a mutual inductive so that tree
recursion stays structural. -/
inductive Expr where
  | ident (name : String)
  | binop (op : String) (l r : Expr)
  | call (fn : String) (args : ExprList)

inductive ExprList where
  | nil
  | cons (head : Expr) (tail : ExprList)
end

/-- Build an `ExprList` from a `List Expr` (for readable literals). -/
def ExprList.ofList : List Expr → ExprList
  | [] => .nil
  | e :: es => .cons e (ExprList.ofList es)

/-- Abbreviation used when writing concrete trees. -/
def EL : List Expr → ExprList := ExprList.ofList

/-- Head of an argument list (JS `args[0]`, `none` when absent). -/
def ExprList.head? : ExprList → Option Expr
  | .nil => none
  | .cons e _ => some e

/-- Indexed access into an argument list. -/
def ExprList.get? : ExprList → Nat → Option Expr
  | .nil, _ => none
  | .cons e _, 0 => some e
  | .cons _ es, n + 1 => ExprList.get? es n

/-- Replace the element at an index of an argument list (no-op out of range). -/
def ExprList.set : ExprList → Nat → Expr → ExprList
  | .nil, _, _ => .nil
  | .cons _ es, 0, x => .cons x es
  | .cons e es, n + 1, x => .cons e (ExprList.set es n x)

/-- Statements inside a function body.  `assign lhs rhs` models an
`expression_statement` holding an assignment (with `left`/`right` fields);
`raw` models a statement synthesized from text by `makeFnStatement`. -/
inductive Stmt where
  | assign (lhs : String) (rhs : Expr)
  | exprStmt (e : Expr)
  | ret (e : Expr)
  | raw (text : String)

/-- Top-level declarations of a parsed program.  `uniformDecl` models a
`declaration_statement` with its qualifier list, type-specifier token and
declared names (the shape read by the Uniform strategy). -/
inductive TopLevel where
  | fn (name : String) (body : List Stmt)
  | uniformDecl (qualifiers : List String) (typeTok : String) (names : List String)
  | exprTL (e : Expr)

/-- A node's owned tree: a full parsed program (`ParserProgram`), the
`{ type: 'empty' }` object returned by the vertex shader parser for a
source-less node, or a bare expression (fillers may replace a tree root). -/
inductive GAst where
  | program (tls : List TopLevel)
  | empty
  | exprAst (e : Expr)

/-- Graph edge (spec §3).  The source field names are `from`/`to`, Lean
keywords, hence the guillemets. -/
structure Edge where
  «from» : String
  «to» : String
  output : String
  input : String
  stage : Option ShaderStage

/-- Graph node (spec §3).  `source` holds the node's GLSL text already parsed:
`preprocess` + `parser.parse` belong to the external library (spec §1/§6) and
are modelled as having been applied, so a `some` source is the parsed tree. -/
structure Node where
  id : String
  name : String
  type : ShaderType
  stage : Option ShaderStage
  source : Option GAst
  expressionOnly : Bool
  nextStageNodeId : Option String
  originalEngine : Option String

/-- A graph: nodes plus edges (spec §3). -/
structure Graph where
  nodes : List Node
  edges : List Edge

/-- The id → node record built by `collectConnectedNodes` and threaded by
`compileNode` (`NodeIds` in the source), as an insertion-ordered association
list. -/
abbrev NodeIds := List (String × Node)

/-- JS spread union `{...a, ...b}`: keys of both, values from `b` where both
occur. -/
def mergeIds (a b : NodeIds) : NodeIds :=
  a.filter (fun p => !(b.any (fun q => q.fst == p.fst))) ++ b

/-- Key set of a `NodeIds` record. -/
def idsKeys (ids : NodeIds) : List String := ids.map Prod.fst

/-- Record lookup `ids[x]`. -/
def idsLookup (ids : NodeIds) (x : String) : Option Node :=
  List.lookup x ids

/-- The `alphabet` constant of `graph.ts` line 46. -/
def alphabet : List Char := "abcdefghijklmnopqrstuvwxyz".toList

/-- JS `alphabet.charAt(index)`: the one-character string at `index`, or the
empty string when the index is out of range. -/
def alphabetCharAt (i : Nat) : String :=
  match alphabet.get? i with
  | some c => String.mk [c]
  | none => ""

/-- Helper for `nodeName`: collapse every run of spaces to one underscore
(JS `.replace(/ +/g, '_')`).  The flag records whether the previous character
was a space. -/
def collapseSpaces : Bool → List Char → List Char
  | _, [] => []
  | prevSpace, c :: rest =>
      if c = ' ' then
        if prevSpace then collapseSpaces true rest
        else '_' :: collapseSpaces true rest
      else c :: collapseSpaces false rest

/-- `nodeName` (`graph.ts` line 110): `'main_' +` the display name with every
non-alphanumeric character replaced by a space and every run of spaces
collapsed to a single underscore. -/
def nodeName (node : Node) : String :=
  "main_" ++ String.mk (collapseSpaces false
    (node.name.toList.map (fun c => if c.isAlphanum then c else ' ')))

mutual
/-- Modelled from the spec: the external code generator `generate(Tree) ->
text` (spec §6), on the expression forms the compiler feeds it. -/
def generateExpr : Expr → String
  | .ident n => n
  | .binop op l r => generateExpr l ++ " " ++ op ++ " " ++ generateExpr r
  | .call fn args => fn ++ "(" ++ generateArgs args ++ ")"

def generateArgs : ExprList → String
  | .nil => ""
  | .cons e .nil => generateExpr e
  | .cons e es => generateExpr e ++ ", " ++ generateArgs es
end

/-- JS `Array.prototype.join(sep)`. -/
def joinSep (sep : String) : List String → String
  | [] => ""
  | t :: rest =>
      match rest with
      | [] => t
      | _ :: _ => t ++ sep ++ joinSep sep rest

/-- Split a string at single spaces (tokenizer for `makeExpression`). -/
def splitSpaces (cs : List Char) : List (List Char) :=
  match cs with
  | [] => [[]]
  | c :: rest =>
      if c = ' ' then [] :: splitSpaces rest
      else
        match splitSpaces rest with
        | [] => [[c]]
        | t :: ts => (c :: t) :: ts

/-- One expression token: `name()` parses to a nullary call, anything else to
an identifier. -/
def parseToken (t : List Char) : Expr :=
  if t.length ≥ 2 ∧ t.drop (t.length - 2) = ['(', ')'] then
    .call (String.mk (t.take (t.length - 2))) .nil
  else
    .ident (String.mk t)

/-- Fold `op tok op tok ...` onto `acc` as a left-associated chain. -/
def chainTokens (acc : Expr) : List (List Char) → Expr
  | [] => acc
  | [_] => acc
  | op :: t :: rest => chainTokens (.binop (String.mk op) acc (parseToken t)) rest

/-- Modelled from the spec: `makeExpression` from `nodestuff` (not under
`src/`), which wraps the external `parse` on expression text (spec §6).  The
compiler only ever generates identifier tokens, nullary-call tokens and
space-separated binary chains, which this parses left-associatively. -/
def makeExpression (s : String) : Expr :=
  match splitSpaces s.toList with
  | [] => .ident ""
  | t :: rest => chainTokens (parseToken t) rest

/-- Modelled from the spec: `makeFnStatement` from `nodestuff` (not under
`src/`): builds a function-body statement from generated text. -/
def makeFnStatement (text : String) : Stmt := .raw text

mutual
/-- Identifiers of an expression in left-to-right (pre-order) order. -/
def exprIdents : Expr → List String
  | .ident n => [n]
  | .binop _ l r => exprIdents l ++ exprIdents r
  | .call _ args => exprIdentsList args

def exprIdentsList : ExprList → List String
  | .nil => []
  | .cons e es => exprIdents e ++ exprIdentsList es
end

mutual
/-- Operators of an expression in in-order traversal. -/
def exprOps : Expr → List String
  | .ident _ => []
  | .binop op l r => exprOps l ++ [op] ++ exprOps r
  | .call _ args => exprOpsList args

def exprOpsList : ExprList → List String
  | .nil => []
  | .cons e es => exprOps e ++ exprOpsList es
end

/-! ### Tree navigation

Paths address tree nodes by child index, mirroring the `parent`/`key`
references the external `visit` hands to visitors: inside `Expr`, `binop`
children are `0` (left) and `1` (right) and call arguments are indexed;
`Stmt` expressions sit at child `0`; a `fn` body statement sits at its list
index; a program's top-levels sit at their list index. -/

mutual
/-- The expression addressed by a path inside an expression. -/
def exprAtE : Expr → List Nat → Option Expr
  | e, [] => some e
  | .binop _ l _, 0 :: rest => exprAtE l rest
  | .binop _ _ r, 1 :: rest => exprAtE r rest
  | .call _ args, i :: rest => exprAtArgs args i rest
  | _, _ => none

def exprAtArgs : ExprList → Nat → List Nat → Option Expr
  | .nil, _, _ => none
  | .cons e _, 0, rest => exprAtE e rest
  | .cons _ es, i + 1, rest => exprAtArgs es i rest
end

/-- The expression addressed by a path inside a statement. -/
def exprAtStmt : Stmt → List Nat → Option Expr
  | .assign _ rhs, 0 :: rest => exprAtE rhs rest
  | .exprStmt e, 0 :: rest => exprAtE e rest
  | .ret e, 0 :: rest => exprAtE e rest
  | _, _ => none

/-- The expression addressed by a path inside a top-level declaration. -/
def exprAtTL : TopLevel → List Nat → Option Expr
  | .fn _ body, j :: rest => (body.get? j).bind (fun s => exprAtStmt s rest)
  | .exprTL e, 0 :: rest => exprAtE e rest
  | _, _ => none

/-- The expression addressed by a path inside a tree. -/
def exprAt? : GAst → List Nat → Option Expr
  | .program tls, i :: rest => (tls.get? i).bind (fun tl => exprAtTL tl rest)
  | .exprAst e, p => exprAtE e p
  | _, _ => none

/-- The statement addressed by a path (paths of shape `[topIdx, stmtIdx]`). -/
def stmtAt? : GAst → List Nat → Option Stmt
  | .program tls, [i, j] =>
      (tls.get? i).bind (fun tl =>
        match tl with
        | .fn _ body => body.get? j
        | _ => none)
  | _, _ => none

mutual
/-- Replace the expression addressed by a path (no-op on a bad path). -/
def replaceE : Expr → List Nat → Expr → Expr
  | _, [], x => x
  | .binop op l r, 0 :: rest, x => .binop op (replaceE l rest x) r
  | .binop op l r, 1 :: rest, x => .binop op l (replaceE r rest x)
  | .call fn args, i :: rest, x => .call fn (replaceEArgs args i rest x)
  | e, _, _ => e

def replaceEArgs : ExprList → Nat → List Nat → Expr → ExprList
  | .nil, _, _, _ => .nil
  | .cons e es, 0, rest, x => .cons (replaceE e rest x) es
  | .cons e es, i + 1, rest, x => .cons e (replaceEArgs es i rest x)
end

/-- Replace the expression addressed by a path inside a statement. -/
def replaceStmt : Stmt → List Nat → Expr → Stmt
  | .assign l rhs, 0 :: rest, x => .assign l (replaceE rhs rest x)
  | .exprStmt e, 0 :: rest, x => .exprStmt (replaceE e rest x)
  | .ret e, 0 :: rest, x => .ret (replaceE e rest x)
  | s, _, _ => s

/-- Update the element at one index of a list (no-op out of range). -/
def modifyNth {α : Type _} (f : α → α) : List α → Nat → List α
  | [], _ => []
  | a :: rest, 0 => f a :: rest
  | a :: rest, n + 1 => a :: modifyNth f rest n

/-- Replace the expression addressed by a path inside a top-level. -/
def replaceTL : TopLevel → List Nat → Expr → TopLevel
  | .fn n body, j :: rest, x =>
      .fn n (modifyNth (fun s => replaceStmt s rest x) body j)
  | .exprTL e, 0 :: rest, x => .exprTL (replaceE e rest x)
  | tl, _, _ => tl

/-- Replace the expression addressed by a path inside a tree
(the `parent[key] = fillerAst` mutation of the source). -/
def replaceExprAt : GAst → List Nat → Expr → GAst
  | .program tls, i :: rest, x =>
      .program (modifyNth (fun tl => replaceTL tl rest x) tls i)
  | .exprAst e, p, x => .exprAst (replaceE e p x)
  | g, _, _ => g

mutual
/-- Pre-order collection of the function calls whose callee satisfies `pred`,
with their paths.  When `skip` is set, a matched call's arguments are not
descended into (the `path.skip()` of `findVec4Constructor`). -/
def callsE (pred : String → Bool) (skip : Bool) (p : List Nat) : Expr → List (List Nat × Expr)
  | .ident _ => []
  | .binop _ l r => callsE pred skip (p ++ [0]) l ++ callsE pred skip (p ++ [1]) r
  | .call fn args =>
      if pred fn then
        (p, Expr.call fn args) :: (if skip then [] else callsArgs pred skip p 0 args)
      else callsArgs pred skip p 0 args

def callsArgs (pred : String → Bool) (skip : Bool) (p : List Nat) : Nat → ExprList → List (List Nat × Expr)
  | _, .nil => []
  | i, .cons e es => callsE pred skip (p ++ [i]) e ++ callsArgs pred skip p (i + 1) es
end

/-- Pre-order `function_call` collection inside a statement. -/
def callsStmt (pred : String → Bool) (skip : Bool) (p : List Nat) : Stmt → List (List Nat × Expr)
  | .assign _ rhs => callsE pred skip (p ++ [0]) rhs
  | .exprStmt e => callsE pred skip (p ++ [0]) e
  | .ret e => callsE pred skip (p ++ [0]) e
  | .raw _ => []

/-- Pre-order `function_call` collection over a whole tree. -/
def callPaths (pred : String → Bool) (skip : Bool) (g : GAst) : List (List Nat × Expr) :=
  match g with
  | .program tls =>
      (tls.enum.map (fun q =>
        match q.snd with
        | .fn _ body =>
            (body.enum.map (fun r => callsStmt pred skip [q.fst, r.fst] r.snd)).flatten
        | .exprTL e => callsE pred skip [q.fst, 0] e
        | _ => [])).flatten
  | .empty => []
  | .exprAst e => callsE pred skip [] e

mutual
/-- Pre-order collection of the paths of identifier nodes named `name`. -/
def identPathsE (name : String) (p : List Nat) : Expr → List (List Nat)
  | .ident n => if n == name then [p] else []
  | .binop _ l r => identPathsE name (p ++ [0]) l ++ identPathsE name (p ++ [1]) r
  | .call _ args => identPathsArgs name p 0 args

def identPathsArgs (name : String) (p : List Nat) : Nat → ExprList → List (List Nat)
  | _, .nil => []
  | i, .cons e es => identPathsE name (p ++ [i]) e ++ identPathsArgs name p (i + 1) es
end

/-- Identifier-path collection inside a statement. -/
def identPathsStmt (name : String) (p : List Nat) : Stmt → List (List Nat)
  | .assign _ rhs => identPathsE name (p ++ [0]) rhs
  | .exprStmt e => identPathsE name (p ++ [0]) e
  | .ret e => identPathsE name (p ++ [0]) e
  | .raw _ => []

/-- Identifier-path collection over a whole tree (visitor `identifier`). -/
def identPaths (name : String) (g : GAst) : List (List Nat) :=
  match g with
  | .program tls =>
      (tls.enum.map (fun q =>
        match q.snd with
        | .fn _ body =>
            (body.enum.map (fun r => identPathsStmt name [q.fst, r.fst] r.snd)).flatten
        | .exprTL e => identPathsE name [q.fst, 0] e
        | _ => [])).flatten
  | .empty => []
  | .exprAst e => identPathsE name [] e

/-- Does the tree node at the path carry a `right` field?  In the parser's
trees those are binary expressions and assignments (`path.findParent((p) =>
'right' in p.node)` in `findVec4Constructor`). -/
def hasRightAt (g : GAst) (q : List Nat) : Bool :=
  match exprAt? g q with
  | some (.binop _ _ _) => true
  | some _ => false
  | none =>
      match stmtAt? g q with
      | some (.assign _ _) => true
      | _ => false

/-- The nearest proper ancestor of `p` carrying a `right` field. -/
def nearestRightAnc (g : GAst) (p : List Nat) : Option (List Nat) :=
  ((List.range p.length).reverse.map (fun k => p.take k)).find? (fun q => hasRightAt g q)

/-- Set the `right` field of the node at `q` (`assignNode.right = fillerAst`). -/
def setRightAt (g : GAst) (q : List Nat) (x : Expr) : GAst :=
  match exprAt? g q with
  | some (.binop _ _ _) => replaceExprAt g (q ++ [1]) x
  | _ =>
      match stmtAt? g q with
      | some (.assign _ _) => replaceExprAt g (q ++ [0]) x
      | _ => g

/-- `findVec4Constructor` (`graph.ts` line 339): every `vec4` call overwrites
the captured `parent`, so the result is the nearest `right`-bearing ancestor
of the **last** `vec4` call in visit order (`path.skip()` keeps the walk out
of a matched call's arguments). -/
def findVec4Loc (g : GAst) : Option (List Nat) :=
  ((callPaths (fun fn => fn == "vec4") true g).map Prod.fst).getLast?.bind
    (fun p => nearestRightAnc g p)

/-- Locations (`[topIdx, stmtIdx]`) of the assignment statements to `target`,
in visit order. -/
def assignLocs (g : GAst) (target : String) : List (List Nat) :=
  match g with
  | .program tls =>
      (tls.enum.map (fun q =>
        match q.snd with
        | .fn _ body =>
            (body.enum.map (fun r =>
              match r.snd with
              | .assign lhs _ => if lhs == target then [[q.fst, r.fst]] else []
              | _ => [])).flatten
        | _ => [])).flatten
  | _ => []

/-- `findAssignmentTo` (`graph.ts` line 355): the `assign` variable is
overwritten at every matching `expression_statement`, so the last match in
visit order wins. -/
def findAssignmentToLoc (g : GAst) (target : String) : Option (List Nat) :=
  (assignLocs g target).getLast?

/-- Right-hand side of the assignment at a statement location. -/
def assignRhsAt (g : GAst) (loc : List Nat) : Option Expr :=
  exprAt? g (loc ++ [0])

/-! ### Models of the external renamers and of `nodestuff` -/

mutual
/-- Apply a mapper to every variable-identifier occurrence of an expression. -/
def renameBindingsE (f : String → String) : Expr → Expr
  | .ident n => .ident (f n)
  | .binop op l r => .binop op (renameBindingsE f l) (renameBindingsE f r)
  | .call fn args => .call fn (renameBindingsArgs f args)

def renameBindingsArgs (f : String → String) : ExprList → ExprList
  | .nil => .nil
  | .cons e es => .cons (renameBindingsE f e) (renameBindingsArgs f es)
end

/-- Apply a binding mapper inside a statement. -/
def renameBindingsStmt (f : String → String) : Stmt → Stmt
  | .assign lhs rhs => .assign (f lhs) (renameBindingsE f rhs)
  | .exprStmt e => .exprStmt (renameBindingsE f e)
  | .ret e => .ret (renameBindingsE f e)
  | .raw t => .raw t

/-- Modelled from the spec: `renameBindings(scope, mapper)` of the external
parser library (spec §6), applied to the program scope: every bound-variable
occurrence — declared names of declarations, assignment targets and plain
identifier references — is mapped; function names are not (those belong to
`renameFunctions`). -/
def renameBindings (f : String → String) : GAst → GAst
  | .program tls =>
      .program (tls.map (fun tl =>
        match tl with
        | .fn n body => .fn n (body.map (renameBindingsStmt f))
        | .uniformDecl q t names => .uniformDecl q t (names.map f)
        | .exprTL e => .exprTL (renameBindingsE f e)))
  | .empty => .empty
  | .exprAst e => .exprAst (renameBindingsE f e)

/-- Names of the functions a program declares. -/
def declaredFns (g : GAst) : List String :=
  match g with
  | .program tls =>
      tls.flatMap (fun tl =>
        match tl with
        | .fn n _ => [n]
        | _ => [])
  | _ => []

mutual
/-- Map call sites whose callee is a declared function. -/
def renameFnCallsE (declared : List String) (f : String → String) : Expr → Expr
  | .ident n => .ident n
  | .binop op l r => .binop op (renameFnCallsE declared f l) (renameFnCallsE declared f r)
  | .call fn args =>
      .call (if declared.contains fn then f fn else fn) (renameFnCallsArgs declared f args)

def renameFnCallsArgs (declared : List String) (f : String → String) : ExprList → ExprList
  | .nil => .nil
  | .cons e es => .cons (renameFnCallsE declared f e) (renameFnCallsArgs declared f es)
end

/-- Map declared-function call sites inside a statement. -/
def renameFnCallsStmt (declared : List String) (f : String → String) : Stmt → Stmt
  | .assign lhs rhs => .assign lhs (renameFnCallsE declared f rhs)
  | .exprStmt e => .exprStmt (renameFnCallsE declared f e)
  | .ret e => .ret (renameFnCallsE declared f e)
  | .raw t => .raw t

/-- Modelled from the spec: `renameFunctions(scope, mapper)` of the external
parser library (spec §6): maps every declared function's name at its
declaration and at its call sites; identifiers bound as variables are
untouched. -/
def renameFunctions (f : String → String) (g : GAst) : GAst :=
  let declared := declaredFns g
  match g with
  | .program tls =>
      .program (tls.map (fun tl =>
        match tl with
        | .fn n body => .fn (f n) (body.map (renameFnCallsStmt declared f))
        | .uniformDecl q t names => .uniformDecl q t names
        | .exprTL e => .exprTL (renameFnCallsE declared f e)))
  | .empty => .empty
  | .exprAst e => .exprAst (renameFnCallsE declared f e)

/-- Names a program declares as (uniform) variable declarations. -/
def declaredBindings (g : GAst) : List String :=
  match g with
  | .program tls =>
      tls.flatMap (fun tl =>
        match tl with
        | .uniformDecl _ _ names => names
        | _ => [])
  | _ => []

/-- Modelled from the spec: `from2To3` of `nodestuff` (not under `src/`).
The spec mentions only that sources are brought to GLSL-300 form (§4.1); no
claim depends on its effect, and the modelled sources are already in 300
form, so it is the identity. -/
def from2To3 (_stage : ShaderStage) (g : GAst) : GAst := g

/-- Turn the final assignment of a statement list into a return of its
right-hand side (helper for `convert300MainToReturn`). -/
def convertLastAssign : List Stmt → List Stmt
  | [] => []
  | [Stmt.assign _ rhs] => [Stmt.ret rhs]
  | s :: rest => s :: convertLastAssign rest

/-- Modelled from the spec: `convert300MainToReturn` of `nodestuff` (not
under `src/`): "rewriting a 300-style shader's `main` into a return-producing
function" (spec §4.1) — the final assignment of `main`'s body becomes a
return of its right-hand side.  Top-level declarations are untouched. -/
def convert300MainToReturn (g : GAst) : GAst :=
  match g with
  | .program tls =>
      .program (tls.map (fun tl =>
        match tl with
        | .fn n body => if n = "main" then .fn n (convertLastAssign body) else .fn n body
        | other => other))
  | g => g

/-- Modelled from the spec: `returnGlPosition` of `nodestuff` (not under
`src/`): rewrites the vertex `gl_Position` assignment into a return of the
full `vec4` expression (spec §4.3). -/
def returnGlPosition (g : GAst) : GAst :=
  match g with
  | .program tls =>
      .program (tls.map (fun tl =>
        match tl with
        | .fn n body =>
            .fn n (body.map (fun s =>
              match s with
              | .assign lhs rhs => if lhs = "gl_Position" then .ret rhs else .assign lhs rhs
              | s => s))
        | other => other))
  | g => g

/-- Modelled from the spec: `returnGlPositionVec3Right` of `nodestuff` (not
under `src/`): rewrites the vertex position assignment into a return of the
`vec3` right-hand expression (spec §4.3). -/
def returnGlPositionVec3Right (g : GAst) : GAst :=
  match g with
  | .program tls =>
      .program (tls.map (fun tl =>
        match tl with
        | .fn n body =>
            .fn n (body.map (fun s =>
              match s with
              | .assign lhs rhs =>
                  if lhs = "gl_Position" then .ret (.call "vec3" (.cons rhs .nil))
                  else .assign lhs rhs
              | s => s))
        | other => other))
  | g => g

/-- Modelled from the spec: `doesLinkThruShader` of `nodestuff` (not under
`src/`): whether the node's output is consumed further by another
position-modifying shader node (spec §4.3).  No claim depends on which
rewrite branch is chosen. -/
def doesLinkThruShader (graph : Graph) (node : Node) : Bool :=
  graph.edges.any (fun e =>
    e.«from» == node.id &&
      graph.nodes.any (fun m => m.id == e.«to» && m.type == ShaderType.shader))

/-- Modelled from the spec: `ShaderSections` of `nodestuff` (not under
`src/`): "a categorized, order-preserving collection of top-level
declarations (preprocessor directives, functions, uniform declarations,
in/out declarations)" (spec §3). -/
structure ShaderSections where
  preprocessor : List String
  functions : List TopLevel
  uniforms : List TopLevel
  inOut : List TopLevel
  program : List TopLevel

/-- Modelled from the spec: `emptyShaderSections` of `nodestuff`. -/
def emptyShaderSections : ShaderSections :=
  { preprocessor := [], functions := [], uniforms := [], inOut := [], program := [] }

/-- Modelled from the spec: `findShaderSections` of `nodestuff`: gathers a
program's top-level declarations into categories, preserving order. -/
def findShaderSections (g : GAst) : ShaderSections :=
  match g with
  | .program tls =>
      { preprocessor := []
        functions := tls.filter (fun tl => match tl with | .fn _ _ => true | _ => false)
        uniforms := tls.filter (fun tl =>
          match tl with
          | .uniformDecl q _ _ => q.contains "uniform"
          | _ => false)
        inOut := tls.filter (fun tl =>
          match tl with
          | .uniformDecl q _ _ => !q.contains "uniform" && (q.contains "in" || q.contains "out")
          | _ => false)
        program := tls.filter (fun tl =>
          match tl with
          | .uniformDecl q _ _ => !q.contains "uniform" && !q.contains "in" && !q.contains "out"
          | .exprTL _ => true
          | .fn _ _ => false) }
  | _ => emptyShaderSections

/-- Modelled from the spec: `mergeShaderSections` of `nodestuff`:
"concatenates each declaration category from `a` then `b`, preserving
relative order within each category, … a pure append" (spec §4.4). -/
def mergeShaderSections (a b : ShaderSections) : ShaderSections :=
  { preprocessor := a.preprocessor ++ b.preprocessor
    functions := a.functions ++ b.functions
    uniforms := a.uniforms ++ b.uniforms
    inOut := a.inOut ++ b.inOut
    program := a.program ++ b.program }

/-! ### Node parsers (`graph.ts` lines 46–337)

The source threads the mutable `EngineContext` into every parser callback;
none of the built-in parsers reads it, so the embedded callbacks take only
the engine's data (name and preserve set), the graph, the node and its input
edges.  A filler takes the produced filler expression and the destination
node's current tree and returns the updated tree (`graph.ts` fillers mutate
`nodeContext.ast` in place). -/

/-- A filler function: splices an expression into the node's own tree. -/
abbrev FillerL := Expr → GAst → Except String GAst

/-- A node's computed context: its tree and its input-slot map
(`NodeContext` of `graph.ts`; the `id`/`name`/`source` bookkeeping fields are
never read by the compiler and are dropped). -/
structure NodeContextL where
  ast : GAst
  inputs : List (String × FillerL)

/-- `engineContext.nodes`: id → node context, insertion ordered. -/
abbrev NodesMap := List (String × NodeContextL)

def nodesLookup (m : NodesMap) (x : String) : Option NodeContextL :=
  List.lookup x m

/-- Mutate the stored tree of one node's context (`nodeContext.ast = ...`). -/
def nodesUpdateAst (m : NodesMap) (x : String) (a : GAst) : NodesMap :=
  m.map (fun p => if p.fst == x then (p.fst, { p.snd with ast := a }) else p)

/-- `context[node.id] = {...(context[node.id] || {}), ...nodeContext}`: since
the computed context sets every field, the spread merge is a replacement. -/
def nodesInsert (m : NodesMap) (x : String) (c : NodeContextL) : NodesMap :=
  if m.any (fun p => p.fst == x) then
    m.map (fun p => if p.fst == x then (x, c) else p)
  else m ++ [(x, c)]

/-- The engine data the built-in parsers read (`engine.name`,
`engine.preserve`). -/
structure EngineData where
  name : String
  preserve : List String

/-- A per-stage shader parser (`ShaderParser` of `graph.ts`). -/
structure ShaderParserL where
  produceAst : EngineData → Graph → Node → List Edge → Except String GAst
  findInputs : Node → GAst → List Edge → Except String (List (String × FillerL))
  produceFiller : Node → GAst → Option Expr

/-- `NodeParser = ProgramParser | ShaderParser`: either a fragment/vertex
pair or a single parser used for both stages (the binary nodes). -/
inductive NodeParserL where
  | perStage (fragment vertex : ShaderParserL)
  | single (p : ShaderParserL)

/-- `stage in parser ? parser[stage] : parser`: per-stage parsers dispatch on
the stage; a missing stage on a per-stage parser leaves `parser.produceAst`
undefined in JS, modelled as a `TypeError`. -/
def selectParser : NodeParserL → Option ShaderStage → Except String ShaderParserL
  | .perStage f _, some .fragment => .ok f
  | .perStage _ v, some .vertex => .ok v
  | .perStage _ _, none => .error "TypeError: produceAst is not a function"
  | .single p, _ => .ok p

/-- An engine adapter: name, identifier-preservation set and override parser
table (spec §4.5).  `mergeOptions` and the opaque runtime state are never
read by the compiler core and are dropped. -/
structure Engine where
  name : String
  preserve : List String
  parsers : ShaderType → Option NodeParserL

def Engine.data (e : Engine) : EngineData := ⟨e.name, e.preserve⟩

/-- `binaryNode(operation).produceAst` (`graph.ts` line 116): a one-statement
program holding `a op b` when no edges are connected, otherwise the first
`inputEdges.length` alphabet letters joined by the operator. -/
def binaryProduceAst (operation : String) (_ed : EngineData) (_g : Graph) (_n : Node)
    (inputEdges : List Edge) : Except String GAst :=
  .ok (.program [.exprTL (makeExpression (
    if inputEdges.length ≠ 0 then
      joinSep (" " ++ operation ++ " ")
        ((List.range inputEdges.length).map alphabetCharAt)
    else "a " ++ operation ++ " b"))])

/-- One letter slot's filler (`graph.ts` line 139): the visitor overwrites
`foundPath` at every matching identifier, so the last occurrence in visit
order is replaced in place; no occurrence is a fatal error; a parentless
occurrence replaces the tree root (`nodeContext.ast = fillerAst`). -/
def binaryLetterFill (letter : String) : FillerL := fun fillerAst g =>
  match (identPaths letter g).getLast? with
  | none =>
      .error ("Im drunk and I think this case is impossible, no " ++ letter ++
        " found in binary node?")
  | some [] => .ok (.exprAst fillerAst)
  | some p => .ok (replaceExprAt g p fillerAst)

/-- `binaryNode(operation).findInputs` (`graph.ts` line 132): one slot per
letter for the first `max(inputEdges.length + 1, 2)` alphabet letters.  The
assoc list models the JS object built by `reduce` with spread; it is faithful
only while the keys are distinct, i.e. up to alphabet index 25 — past that
every key is `charAt` out of range, the empty string, and the JS object
collapses the duplicates into one property where this list keeps them. -/
def binaryFindInputs (_n : Node) (_ast : GAst) (inputEdges : List Edge) :
    Except String (List (String × FillerL)) :=
  .ok ((List.range (max (inputEdges.length + 1) 2)).map
    (fun i => (alphabetCharAt i, binaryLetterFill (alphabetCharAt i))))

/-- `binaryNode(operation).produceFiller` returns `ast.program` — the
statement array, which holds the node's single expression. -/
def binaryProduceFiller (_node : Node) (ast : GAst) : Option Expr :=
  match ast with
  | .program tls =>
      (tls.filterMap (fun tl =>
        match tl with
        | .exprTL e => some e
        | _ => none)).head?
  | .exprAst e => some e
  | .empty => none

def binaryNodeParser (operation : String) : NodeParserL :=
  .single
    { produceAst := binaryProduceAst operation
      findInputs := binaryFindInputs
      produceFiller := binaryProduceFiller }

/-- `parsers[ShaderType.output].fragment.produceAst`: preprocess and parse
the node's source (both external, spec §6; the modelled `source` is already
the parsed tree). -/
def outputFragmentProduceAst (_ed : EngineData) (_g : Graph) (node : Node)
    (_edges : List Edge) : Except String GAst :=
  match node.source with
  | some src => .ok src
  | none => .error "TypeError: source is not defined"

/-- The `color` filler: `assignNode.right = fillerAst` on the node captured
by `findVec4Constructor`.  The capture is modelled as the captured location;
nothing moves statements in the fragment output tree, so the location stays
valid. -/
def colorFiller (loc : List Nat) : FillerL := fun fillerAst g =>
  .ok (setRightAt g loc fillerAst)

def outputFragmentFindInputs (_n : Node) (ast : GAst) (_edges : List Edge) :
    Except String (List (String × FillerL)) :=
  match findVec4Loc ast with
  | none => .error "Impossible error, no assign node in output"
  | some loc => .ok [("color", colorFiller loc)]

def outputFragmentParser : ShaderParserL :=
  { produceAst := outputFragmentProduceAst
    findInputs := outputFragmentFindInputs
    produceFiller := fun _ _ => none }

def outputVertexProduceAst (_ed : EngineData) (_g : Graph) (node : Node)
    (_edges : List Edge) : Except String GAst :=
  match node.source with
  | some src => .ok src
  | none => .error "TypeError: source is not defined"

/-- Prepend a statement to the body of the first `function` top-level. -/
def prependToFirstFn : List TopLevel → Stmt → Option (List TopLevel)
  | [], _ => none
  | .fn n body :: rest, s => some (.fn n (s :: body) :: rest)
  | tl :: rest, s => (prependToFirstFn rest s).map (tl :: ·)

/-- The `mainStmts` filler (`graph.ts` line 213): re-finds the first function
statement **at fill time** and unshifts `makeFnStatement(generate(fillerAst))`
onto its body; no function statement is a JS `TypeError`. -/
def mainStmtsFiller : FillerL := fun fillerAst g =>
  match g with
  | .program tls =>
      match prependToFirstFn tls (makeFnStatement (generateExpr fillerAst)) with
      | some tls2 => .ok (.program tls2)
      | none => .error "TypeError: cannot read body of undefined"
  | _ => .error "TypeError: cannot read body of undefined"

/-- The `position` filler (`graph.ts` line 218):
`assignNode.expression.right = fillerAst` on the statement captured by
`findAssignmentTo`.  The capture is modelled by re-locating the last
`gl_Position` assignment at fill time: `mainStmts` prepends insert only
non-assignment `raw` statements and position fills replace only the
right-hand side, so the located statement is the captured one. -/
def positionFiller : FillerL := fun fillerAst g =>
  .ok (match findAssignmentToLoc g "gl_Position" with
    | some loc => replaceExprAt g (loc ++ [0]) fillerAst
    | none => g)

def outputVertexFindInputs (_n : Node) (ast : GAst) (_edges : List Edge) :
    Except String (List (String × FillerL)) :=
  match findAssignmentToLoc ast "gl_Position" with
  | none => .error "Impossible error, no assign node in output"
  | some _ => .ok [("mainStmts", mainStmtsFiller), ("position", positionFiller)]

def outputVertexParser : ShaderParserL :=
  { produceAst := outputVertexProduceAst
    findInputs := outputVertexFindInputs
    produceFiller := fun _ _ => none }

/-- The per-node mangling mapper (`graph.ts` lines 245–247 and 303–305):
preserved identifiers stay, everything else is suffixed with `_` and the
node id. -/
def mangleMapper (ed : EngineData) (node : Node) : String → String :=
  fun n => if ed.preserve.contains n then n else n ++ "_" ++ node.id

/-- The function mangling mapper (`graph.ts` lines 248–250): `main` becomes
`nodeName(node)`, everything else is suffixed with the node id. -/
def fnMangleMapper (node : Node) : String → String :=
  fun n => if n == "main" then nodeName node else n ++ "_" ++ node.id

/-- The three → babylon source hack (`graph.ts` lines 238–242). -/
def threeToBabylonMapper : String → String :=
  fun n => if n == "vUv" then "vMainUV1" else if n == "vNormal" then "vNormalW" else n

/-- `parsers[ShaderType.shader].fragment.produceAst` (`graph.ts` line 228):
preprocess + parse (external), `from2To3`, the three → babylon rename hack,
`convert300MainToReturn`, then binding and function mangling. -/
def shaderFragmentProduceAst (ed : EngineData) (_g : Graph) (node : Node)
    (_edges : List Edge) : Except String GAst :=
  match node.source with
  | none => .error "TypeError: source is not defined"
  | some src =>
      let a1 := from2To3 .fragment src
      let a2 :=
        if node.originalEngine == some "three" && ed.name == "babylon" then
          renameBindings threeToBabylonMapper a1
        else a1
      let a3 := convert300MainToReturn a2
      let a4 := renameBindings (mangleMapper ed node) a3
      .ok (renameFunctions (fnMangleMapper node) a4)

/-- A texture2d slot's filler: `parent[key] = fillerAst` at the captured call
site. -/
def texture2dFiller (p : List Nat) : FillerL := fun fillerAst g =>
  .ok (replaceExprAt g p fillerAst)

/-- `parsers[ShaderType.shader].fragment.findInputs` (`graph.ts` line 253):
one input `texture2d_<index>` per `texture2D` call (legacy spelling only
here), in visit order. -/
def shaderFragmentFindInputs (_n : Node) (ast : GAst) (_edges : List Edge) :
    Except String (List (String × FillerL)) :=
  .ok ((callPaths (fun fn => fn == "texture2D") false ast).enum.map
    (fun q => ("texture2d_" ++ toString q.fst, texture2dFiller q.snd.fst)))

/-- Shader nodes fill as a call of their mangled entry function
(`makeExpression(nodeName(node) + "()")`). -/
def shaderProduceFiller (node : Node) (_ast : GAst) : Option Expr :=
  some (makeExpression (nodeName node ++ "()"))

def shaderFragmentParser : ShaderParserL :=
  { produceAst := shaderFragmentProduceAst
    findInputs := shaderFragmentFindInputs
    produceFiller := shaderProduceFiller }

/-- `parsers[ShaderType.shader].vertex.produceAst` (`graph.ts` line 285):
a source-less node yields `{ type: 'empty' }`; otherwise preprocess + parse,
`from2To3`, the position rewrite chosen by `doesLinkThruShader`, then
binding and function mangling (no babylon hack and no
`convert300MainToReturn` on the vertex side). -/
def shaderVertexProduceAst (ed : EngineData) (graph : Graph) (node : Node)
    (_edges : List Edge) : Except String GAst :=
  match node.source with
  | none => .ok GAst.empty
  | some src =>
      let a1 := from2To3 .vertex src
      let a2 :=
        if doesLinkThruShader graph node then returnGlPositionVec3Right a1
        else returnGlPosition a1
      let a3 := renameBindings (mangleMapper ed node) a2
      .ok (renameFunctions (fnMangleMapper node) a3)

/-- The vertex shader `position` filler (`graph.ts` line 311): rewrites every
reference of the `position` binding to the generated filler text. -/
def shaderVertexPositionFiller : FillerL := fun fillerAst g =>
  .ok (renameBindings
    (fun n => if n == "position" then generateExpr fillerAst else n) g)

def shaderVertexFindInputs (_n : Node) (_ast : GAst) (_edges : List Edge) :
    Except String (List (String × FillerL)) :=
  .ok [("position", shaderVertexPositionFiller)]

def shaderVertexParser : ShaderParserL :=
  { produceAst := shaderVertexProduceAst
    findInputs := shaderVertexFindInputs
    produceFiller := shaderProduceFiller }

/-- The built-in parser table (`graph.ts` line 172). -/
def parsers : ShaderType → Option NodeParserL
  | .output => some (.perStage outputFragmentParser outputVertexParser)
  | .shader => some (.perStage shaderFragmentParser shaderVertexParser)
  | .add => some (binaryNodeParser "+")
  | .multiply => some (binaryNodeParser "*")

/-! ### Connected-node collection and the graph compiler
(`graph.ts` lines 374–710) -/

/-- The `inputEdges.forEach` loop of `collectConnectedNodes`: each child is
collected with the **original** `ids` argument and the child results are
spread into the accumulator. -/
def collectList (cc : Node → Except String NodeIds) (graph : Graph) :
    List Edge → NodeIds → Except String NodeIds
  | [], acc => .ok acc
  | e :: rest, acc =>
      match graph.nodes.find? (fun n => e.«from» == n.id) with
      | none => .error ("Node for edge " ++ e.«from» ++ " not found")
      | some fromNode =>
          match cc fromNode with
          | .error m => .error m
          | .ok childIds => collectList cc graph rest (mergeIds acc childIds)

/-- `collectConnectedNodes` (`graph.ts` line 374).  The source recursion is
unbounded; the fuel models the JS call stack (a cyclic graph exhausts it). -/
def collectConnectedNodes : Nat → Graph → List Edge → Node → NodeIds → Except String NodeIds
  | 0, _, _, _, _ => .error "Maximum call stack size exceeded"
  | fuel + 1, graph, edges, node, ids =>
      match collectList (fun fromNode => collectConnectedNodes fuel graph edges fromNode ids)
          graph (edges.filter (fun e => e.«to» == node.id)) ids with
      | .error m => .error m
      | .ok compiledIds => .ok (mergeIds compiledIds [(node.id, node)])

/-- Instrumented variant of `collectList` that also concatenates the call
traces of the children. -/
def collectListTrace (cc : Node → Except String (NodeIds × List String)) (graph : Graph) :
    List Edge → NodeIds × List String → Except String (NodeIds × List String)
  | [], acc => .ok acc
  | e :: rest, (acc, tr) =>
      match graph.nodes.find? (fun n => e.«from» == n.id) with
      | none => .error ("Node for edge " ++ e.«from» ++ " not found")
      | some fromNode =>
          match cc fromNode with
          | .error m => .error m
          | .ok (childIds, childTr) =>
              collectListTrace cc graph rest (mergeIds acc childIds, tr ++ childTr)

/-- `collectConnectedNodes` instrumented with its call trace: every call logs
the id of the node it computes, so a node id occurring twice in the trace was
computed twice. -/
def collectConnectedNodesTrace : Nat → Graph → List Edge → Node → NodeIds →
    Except String (NodeIds × List String)
  | 0, _, _, _, _ => .error "Maximum call stack size exceeded"
  | fuel + 1, graph, edges, node, ids =>
      match collectListTrace
          (fun fromNode => collectConnectedNodesTrace fuel graph edges fromNode ids)
          graph (edges.filter (fun e => e.«to» == node.id)) (ids, [node.id]) with
      | .error m => .error m
      | .ok (compiledIds, tr) => .ok (mergeIds compiledIds [(node.id, node)], tr)

/-- The `inputEdges.forEach` wiring loop of `compileNode` (`graph.ts` lines
436–473): per edge, resolve the source node, recursively compile it, check
its filler, merge sections and ids, and invoke the destination's filler named
by the edge's input port on the destination's current tree. -/
def compileEdgeList
    (cmp : NodesMap → Node → Except String (ShaderSections × Option Expr × NodeIds × NodesMap))
    (graph : Graph) (inputs : List (String × FillerL)) (nodeId : String) :
    List Edge → ShaderSections × NodeIds × NodesMap →
      Except String (ShaderSections × NodeIds × NodesMap)
  | [], st => .ok st
  | e :: rest, (continuation, compiledIds, nodes) =>
      match graph.nodes.find? (fun n => e.«from» == n.id) with
      | none => .error ("Node for edge " ++ e.«from» ++ " not found")
      | some fromNode =>
          match cmp nodes fromNode with
          | .error m => .error m
          | .ok (inputSections, fillerOpt, childIds, nodes1) =>
              match fillerOpt with
              | none =>
                  .error ("Expected a filler ast from node ID " ++ fromNode.id ++
                    " (" ++ fromNode.type.str ++ ") but none was returned")
              | some fillerAst =>
                  let continuation1 := mergeShaderSections continuation inputSections
                  let compiledIds1 := mergeIds compiledIds childIds
                  match inputs.lookup e.input with
                  | none => .error ("Node " ++ nodeId ++ " has no input " ++ e.input)
                  | some filler =>
                      match nodesLookup nodes1 nodeId with
                      | none => .error "No node context found"
                      | some ctx =>
                          match filler fillerAst ctx.ast with
                          | .error m => .error m
                          | .ok ast1 =>
                              compileEdgeList cmp graph inputs nodeId rest
                                (continuation1, compiledIds1, nodesUpdateAst nodes1 nodeId ast1)

/-- `compileNode` (`graph.ts` line 403).  The result carries the merged
sections, the node's filler expression, the visited-id record and the node
context map after the in-place wiring mutations. -/
def compileNode : Nat → Engine → Graph → List Edge → ShaderStage → NodesMap → Node →
    NodeIds → Except String (ShaderSections × Option Expr × NodeIds × NodesMap)
  | 0, _, _, _, _, _, _, _ => .error "Maximum call stack size exceeded"
  | fuel + 1, engine, graph, edges, stage, nodes, node, ids =>
      match (match engine.parsers node.type with
             | some p => some p
             | none => parsers node.type) with
      | none =>
          .error ("No parser found for " ++ node.name ++ " (" ++ node.type.str ++
            ", id " ++ node.id ++ ")")
      | some parser =>
          match nodesLookup nodes node.id with
          | none => .error ("No node context found for " ++ node.name ++ " (id " ++ node.id ++ ")")
          | some nodeContext =>
              match selectParser parser (some stage) with
              | .error m => .error m
              | .ok sp =>
                  let inputEdges := edges.filter (fun e => e.«to» == node.id)
                  if inputEdges.isEmpty then
                    let sections :=
                      if node.expressionOnly then emptyShaderSections
                      else findShaderSections nodeContext.ast
                    .ok (sections, sp.produceFiller node nodeContext.ast,
                      mergeIds ids [(node.id, node)], nodes)
                  else
                    match compileEdgeList
                        (fun ns n => compileNode fuel engine graph edges stage ns n ids)
                        graph nodeContext.inputs node.id inputEdges
                        (emptyShaderSections, ids, nodes) with
                    | .error m => .error m
                    | .ok (continuation, compiledIds, nodes1) =>
                        let astFinal :=
                          match nodesLookup nodes1 node.id with
                          | some c => c.ast
                          | none => nodeContext.ast
                        let sections := mergeShaderSections continuation
                          (if node.expressionOnly then emptyShaderSections
                           else findShaderSections astFinal)
                        .ok (sections, sp.produceFiller node astFinal,
                          mergeIds compiledIds [(node.id, node)], nodes1)

/-- `computeNodeContext` (`graph.ts` line 505).  The optional
`onBeforeCompile` hook only touches engine runtime state, which no built-in
parser defines; it is outside the model. -/
def computeNodeContext (ed : EngineData) (graph : Graph) (parser : NodeParserL)
    (node : Node) (stage : Option ShaderStage) : Except String NodeContextL :=
  let inputEdges := graph.edges.filter (fun e => e.«to» == node.id)
  match selectParser parser stage with
  | .error m => .error m
  | .ok sp =>
      match sp.produceAst ed graph node inputEdges with
      | .error m => .error m
      | .ok ast =>
          match sp.findInputs node ast inputEdges with
          | .error m => .error m
          | .ok inputs => .ok { ast := ast, inputs := inputs }

/-- `computeSideContext` (`graph.ts` line 543): reduce the node list into the
engine context's node map, preferring the engine's parser table over the
built-in one. -/
def computeSideContext (engine : Engine) (graph : Graph) :
    List Node → NodesMap → Except String NodesMap
  | [], ctx => .ok ctx
  | node :: rest, ctx =>
      match (match engine.parsers node.type with
             | some p => some p
             | none => parsers node.type) with
      | none => .error ("No parser for " ++ node.type.str)
      | some parser =>
          match computeNodeContext engine.data graph parser node node.stage with
          | .error m => .error m
          | .ok nc => computeSideContext engine graph rest (nodesInsert ctx node.id nc)

/-- The output-node search of `computeGraphContext`/`compileGraph`. -/
def findOutputNode (graph : Graph) (stage : ShaderStage) : Option Node :=
  graph.nodes.find? (fun n => n.type == ShaderType.output && n.stage == some stage)

/-- `computeGraphContext` (`graph.ts` line 602): fragment-side contexts
first, then vertex-side contexts including the orphan "additional" nodes. -/
def computeGraphContext (fuel : Nat) (engine : Engine) (graph : Graph)
    (ctx : NodesMap) : Except String NodesMap :=
  match findOutputNode graph .fragment with
  | none => .error "No fragment output in graph"
  | some outputFrag =>
      match findOutputNode graph .vertex with
      | none => .error "No vertex output in graph"
      | some outputVert =>
          match collectConnectedNodes fuel graph graph.edges outputVert [] with
          | .error m => .error m
          | .ok vertexIds =>
              match collectConnectedNodes fuel graph graph.edges outputFrag [] with
              | .error m => .error m
              | .ok fragmentIds =>
                  let additionalIds := graph.nodes.filter (fun n =>
                    n.stage == some ShaderStage.vertex &&
                    (match n.nextStageNodeId with
                     | some nid => (idsLookup fragmentIds nid).isSome
                     | none => false) &&
                    (idsLookup vertexIds n.id).isNone)
                  match computeSideContext engine graph
                      (outputFrag :: fragmentIds.map Prod.snd) ctx with
                  | .error m => .error m
                  | .ok ctx1 =>
                      computeSideContext engine graph
                        (outputVert :: (vertexIds.map Prod.snd ++ additionalIds)) ctx1

/-- The synthesized orphan edges of `compileGraph` (`graph.ts` lines
675–689): one `mainStmts` edge into the vertex output for every vertex-stage
node whose `nextStageNodeId` is in the fragment pass's visited ids but which
is itself absent from the vertex output's connected set. -/
def orphanEdges (graph : Graph) (fragmentIds vertexIds : NodeIds) (outputVert : Node) :
    List Edge :=
  (graph.nodes.filter (fun n =>
    n.stage == some ShaderStage.vertex &&
    (match n.nextStageNodeId with
     | some nid => (idsLookup fragmentIds nid).isSome
     | none => false) &&
    (idsLookup vertexIds n.id).isNone)).map (fun n =>
      { «from» := n.id, «to» := outputVert.id, output := "main",
        input := "mainStmts", stage := some ShaderStage.vertex })

/-- The edge list handed to the vertex-side `compileNode`
(`[...graph.edges, ...orphanEdges]`, a fresh array). -/
def vertexStageEdges (graph : Graph) (fragmentIds vertexIds : NodeIds)
    (outputVert : Node) : List Edge :=
  graph.edges ++ orphanEdges graph fragmentIds vertexIds outputVert

/-- `CompileGraphResult` of `graph.ts`. -/
structure CompileGraphResult where
  fragment : ShaderSections
  vertex : ShaderSections

/-- The mutable engine context: compile counter plus node-context map
(`EngineContext`; the engine-specific `runtime` and debugging fields are
opaque to the compiler core). -/
structure EngineContextL where
  compileCount : Nat
  nodes : NodesMap

/-- The body of `compileGraph` over the node-context map (`graph.ts` lines
648–699): build all contexts, compile the fragment side from the fragment
output, collect the vertex connected set, then compile the vertex side over
`graph.edges` plus the synthesized orphan edges. -/
def compileGraphInner (fuel : Nat) (engine : Engine) (graph : Graph) (ctx : NodesMap) :
    Except String (ShaderSections × ShaderSections × NodesMap) :=
  match computeGraphContext fuel engine graph ctx with
  | .error m => .error m
  | .ok nodes0 =>
      match findOutputNode graph .fragment with
      | none => .error "No fragment output in graph"
      | some outputFrag =>
          match compileNode fuel engine graph graph.edges .fragment nodes0 outputFrag [] with
          | .error m => .error m
          | .ok (fragment, _, fragmentIds, nodes1) =>
              match findOutputNode graph .vertex with
              | none => .error "No vertex output in graph"
              | some outputVert =>
                  match collectConnectedNodes fuel graph graph.edges outputVert [] with
                  | .error m => .error m
                  | .ok vertexIds =>
                      match compileNode fuel engine graph
                          (vertexStageEdges graph fragmentIds vertexIds outputVert)
                          .vertex nodes1 outputVert [] with
                      | .error m => .error m
                      | .ok (vertex, _, _, nodes2) => .ok (fragment, vertex, nodes2)

/-- `compileGraph` (`graph.ts` line 643) with the two mutable references made
explicit: the result triple carries the compiled sections, the engine context
after the call (node contexts mutated by wiring, `compileCount`
incremented), and the caller's graph after the call — the source never
mutates it, the synthesized edges go into a fresh array. -/
def compileGraph (fuel : Nat) (ctx : EngineContextL) (engine : Engine) (graph : Graph) :
    Except String (CompileGraphResult × EngineContextL × Graph) :=
  (compileGraphInner fuel engine graph ctx.nodes).map (fun t =>
    (⟨t.1, t.2.1⟩, ⟨ctx.compileCount + 1, t.2.2⟩, graph))

/-! ### The strategy engine (the strategies module of the source)

Only the strategies the claims cover — Uniform and Texture2D — are embedded;
the others never interact with them. -/

/-- An input descriptor (`NodeInput`): name, id, category, bakeable flag
(spec §3 `InputDescriptor`). -/
structure NodeInputDesc where
  name : String
  id : String
  category : String
  bakeable : Bool
deriving DecidableEq, Repr

/-- A strategy filler returns the (mutated) tree. -/
abbrev FillerS := Expr → GAst → GAst

/-- A `ComputedInput`: descriptor plus filler. -/
abbrev ComputedInput := NodeInputDesc × FillerS

/-- Modelled from the spec: `mangleName`, which the strategies module brings
in from the graph module (not under `src/`): per-node suffixing of an
identifier with the node id (spec glossary, "Mangling"). -/
def mangleName (name : String) (node : Node) : String :=
  name ++ "_" ++ node.id

/-- The Uniform strategy's filler: remove the captured declaration line (or
just the mangled name from a multi-name line) and rewrite every reference of
the mangled uniform name to the generated filler text (strategies source,
`strategyRunners[StrategyType.UNIFORM]`). -/
def uniformFillerModel (name : String) (graphNode : Node) (declIdx numDecls : Nat) :
    FillerS := fun filler g =>
  let mangled := mangleName name graphNode
  match g with
  | .program tls =>
      let pruned := tls.enum.filterMap (fun q =>
        if q.fst = declIdx then
          if numDecls = 1 then none
          else
            match q.snd with
            | .uniformDecl quals t ns => some (.uniformDecl quals t (ns.filter (fun d => d ≠ mangled)))
            | tl => some tl
        else some q.snd)
      renameBindings (fun n => if n == mangled then generateExpr filler else n)
        (.program pruned)
  | g => g

/-- `strategyRunners[StrategyType.UNIFORM]`: flat-map over the program's
top-level statements; a `declaration_statement` qualified `uniform` whose
type token is not `sampler2D` contributes one input per declared name,
category `"data"`, bakeable. -/
def uniformStrategyInputs (graphNode : Node) (ast : GAst) : List ComputedInput :=
  match ast with
  | .program tls =>
      (tls.enum.map (fun q =>
        match q.snd with
        | .uniformDecl quals typeTok names =>
            if quals.contains "uniform" && typeTok != "sampler2D" then
              names.map (fun name =>
                ((⟨name, name, "data", true⟩ : NodeInputDesc),
                  uniformFillerModel name graphNode q.fst names.length))
            else []
        | _ => [])).flatten
  | _ => []

/-- The descriptor list of the Uniform strategy. -/
def uniformStrategyDescs (graphNode : Node) (ast : GAst) : List NodeInputDesc :=
  (uniformStrategyInputs graphNode ast).map Prod.fst

/-- `generate(path.node.args[0])` of the Texture2D strategy; `generate` of a
missing argument renders as the empty string. -/
def texArgText (e : Expr) : String :=
  match e with
  | .call _ args =>
      match args.head? with
      | some a => generateExpr a
      | none => ""
  | _ => ""

/-- The texture-sample calls of a tree in visit order: first-argument text
paired with the call's location (`texture2D` legacy and `texture` modern
spelling). -/
def tex2DCalls (g : GAst) : List (String × List Nat) :=
  (callPaths (fun fn => fn == "texture2D" || fn == "texture") false g).map
    (fun q => (texArgText q.snd, q.fst))

/-- `strategyRunners[StrategyType.TEXTURE_2D]`: one input per call; a call
whose first-argument text occurs more than once anywhere in the tree gets
the name suffixed with the call's index **in the overall call list**; the
filler replaces the call in place. -/
def texture2DStrategyInputs (_node : Node) (ast : GAst) : List ComputedInput :=
  let calls := tex2DCalls ast
  let ns := calls.map Prod.fst
  calls.enum.map (fun q =>
    let nm := q.snd.fst
    let iName := if ns.count nm > 1 then nm ++ "_" ++ toString q.fst else nm
    ((⟨iName, iName, "code", false⟩ : NodeInputDesc),
      fun fillerAst g => replaceExprAt g q.snd.snd fillerAst))

/-- The input names the Texture2D strategy produces, in order. -/
def texInputNames (ast : GAst) : List String :=
  (texture2DStrategyInputs
    ⟨"", "", .shader, none, none, false, none, none⟩ ast).map (fun q => q.fst.name)

/-- The naming rule as the claim states it: a repeated first-argument text is
suffixed with its occurrence index **among occurrences of that text** (the
n-th `tex` call becomes `tex_<n>` counting only `tex` calls). -/
def specTexInputNames (ast : GAst) : List String :=
  let calls := tex2DCalls ast
  let ns := calls.map Prod.fst
  calls.enum.map (fun q =>
    let nm := q.snd.fst
    if ns.count nm > 1 then nm ++ "_" ++ toString ((ns.take q.fst).count nm) else nm)

/-- The GLSL sampler type tokens, for the claim's words "a sampler type". -/
def specSamplerTypes : List String :=
  ["sampler2D", "sampler3D", "samplerCube", "sampler2DArray",
   "sampler2DShadow", "samplerCubeShadow", "sampler2DArrayShadow"]

/-! ### Concrete fixtures used by witnesses and counterexamples -/

/-- Fragment output source: `void main() { gl_FragColor = vec4(c); }`. -/
def fragOutSource : GAst :=
  .program [.fn "main" [.assign "gl_FragColor" (.call "vec4" (EL [.ident "c"]))]]

/-- Vertex output source: `void main() { gl_Position = vec4(p); }`. -/
def vertOutSource : GAst :=
  .program [.fn "main" [.assign "gl_Position" (.call "vec4" (EL [.ident "p"]))]]

def outF : Node :=
  ⟨"outf", "Output F", .output, some .fragment, some fragOutSource, false, none, none⟩

def outV : Node :=
  ⟨"outv", "Output V", .output, some .vertex, some vertOutSource, false, none, none⟩

/-- A fragment shader node: `void main() { fragColor = col; }`. -/
def srcF : GAst := .program [.fn "main" [.assign "fragColor" (.ident "col")]]

def nodeF : Node := ⟨"f1", "Frag F", .shader, some .fragment, some srcF, false, none, none⟩

/-- A vertex shader node feeding `nodeF` across stages
(`nextStageNodeId = "f1"`) but wired to nothing on the vertex side. -/
def srcO : GAst :=
  .program [.fn "main" [.assign "gl_Position" (.call "vec4" (EL [.ident "position"]))]]

def nodeO : Node := ⟨"o1", "Orph O", .shader, some .vertex, some srcO, false, some "f1", none⟩

def edgeF : Edge := ⟨"f1", "outf", "main", "color", some .fragment⟩

/-- The orphan test graph: fragment chain `nodeF → outF`, vertex output alone,
`nodeO` orphaned. -/
def testGraph : Graph := ⟨[outF, outV, nodeF, nodeO], [edgeF]⟩

/-- A test engine with no parser overrides. -/
def testEngine : Engine := ⟨"test", ["gl_Position", "gl_FragColor"], fun _ => none⟩

/-- Extract the payload of a successful computation (with a fallback). -/
def exceptOkOr {α : Type _} (d : α) : Except String α → α
  | .ok a => a
  | .error _ => d

/-- Diamond-shaped fragment graph: `outF ← nA ← nC` and `outF ← nB ← nC`
(the shared node `nC` is reached along two paths). -/
def nA : Node := ⟨"a", "a", .shader, some .fragment, some srcF, false, none, none⟩

def nB : Node := ⟨"b", "b", .shader, some .fragment, some srcF, false, none, none⟩

def nC : Node := ⟨"c", "c", .shader, some .fragment, some srcF, false, none, none⟩

def diamond : Graph :=
  ⟨[outF, nA, nB, nC],
   [⟨"a", "outf", "o", "color", none⟩, ⟨"b", "outf", "o", "x", none⟩,
    ⟨"c", "a", "o", "x", none⟩, ⟨"c", "b", "o", "x", none⟩]⟩

/-- The record `collectConnectedNodes` computes on the diamond. -/
def diamondRes : NodeIds :=
  exceptOkOr [] (collectConnectedNodes 10 diamond diamond.edges outF [])

/-- A graph that compiles fine but carries one edge whose `to` id resolves to
no node. -/
def gBad : Graph :=
  ⟨[outF, outV, nodeF], [edgeF, ⟨"f1", "nowhere", "main", "color", none⟩]⟩

/-- One dangling-`from` edge pointing into the fragment output. -/
def gDanglingEdge : Edge := ⟨"ghost", "outf", "main", "color", none⟩

def gDangling : Graph := ⟨[outF, outV], [gDanglingEdge]⟩

/-- The node-context map the context pass builds for the orphan test graph. -/
def c1Nodes0 : NodesMap :=
  exceptOkOr [] (computeGraphContext 10 testEngine testGraph [])

/-- The fragment-side compilation result on the orphan test graph. -/
def c1FragRes : ShaderSections × Option Expr × NodeIds × NodesMap :=
  exceptOkOr (emptyShaderSections, (none : Option Expr), ([] : NodeIds), ([] : NodesMap))
    (compileNode 10 testEngine testGraph testGraph.edges .fragment c1Nodes0 outF [])

/-- The vertex connected set on the orphan test graph. -/
def c1VertexIds : NodeIds :=
  exceptOkOr [] (collectConnectedNodes 10 testGraph testGraph.edges outV [])

/-- A shader source declaring the uniform `xcol` and referencing it. -/
def srcX : GAst :=
  .program [.uniformDecl ["uniform"] "vec4" ["xcol"],
    .fn "main" [.assign "fragColor" (.ident "xcol")]]

def nX1 : Node := ⟨"n1", "X1", .shader, some .fragment, some srcX, false, none, none⟩

def nX2 : Node := ⟨"n2", "X2", .shader, some .fragment, some srcX, false, none, none⟩

def c2a1 : GAst := exceptOkOr .empty (shaderFragmentProduceAst testEngine.data testGraph nX1 [])

def c2a2 : GAst := exceptOkOr .empty (shaderFragmentProduceAst testEngine.data testGraph nX2 [])

def c2b1 : GAst := exceptOkOr .empty (shaderVertexProduceAst testEngine.data testGraph nX1 [])

def c2b2 : GAst := exceptOkOr .empty (shaderVertexProduceAst testEngine.data testGraph nX2 [])

/-- A three-origin source declaring the varying-style binding `vUv`. -/
def srcVUv : GAst :=
  .program [.uniformDecl ["uniform"] "vec2" ["vUv"],
    .fn "main" [.assign "fragColor" (.ident "vUv")]]

def nThree1 : Node := ⟨"1", "T1", .shader, some .fragment, some srcVUv, false, none, some "three"⟩

def babylonEngineData : EngineData := ⟨"babylon", []⟩

/-- Interleave an operator token before each token of a list (the token shape
`splitSpaces` yields for a joined binary chain after its first token). -/
def interOp (opL : List Char) : List (List Char) → List (List Char)
  | [] => []
  | t :: rest => opL :: t :: interOp opL rest

/-- Twenty-seven connected edges — one more than the alphabet has letters. -/
def c3edges27 : List Edge := List.replicate 27 edgeF

/-- What the binary parser produces for 27 edges: the 26 letters and then
`charAt(26)`, the empty string. -/
def c3idents27 : List String := (List.range 27).map alphabetCharAt

/-- The expression a 2-edge binary add node produces (for the C9 witness). -/
def c9g : GAst :=
  exceptOkOr .empty (binaryProduceAst "+" testEngine.data testGraph outF [edgeF, edgeF])

/-- The tree a 27-edge binary add node produces (for the C9 counterexample). -/
def c27g : GAst :=
  exceptOkOr .empty (binaryProduceAst "+" testEngine.data testGraph outF c3edges27)

/-- Fallback computed input (for indexed access). -/
def dfltComputedInput : ComputedInput := (⟨"", "", "", false⟩, fun _ g => g)

/-- A tree with three texture calls: one `u`, two `tex`. -/
def texTree : GAst :=
  .program [.fn "main"
    [.exprStmt (.call "texture2D" (EL [.ident "u"])),
     .exprStmt (.call "texture2D" (EL [.ident "tex"])),
     .exprStmt (.call "texture2D" (EL [.ident "tex"]))]]

/-- A tree with a single `texture2D(tex2)` call. -/
def texTreeSingle : GAst :=
  .program [.fn "main" [.exprStmt (.call "texture2D" (EL [.ident "tex2"]))]]

/-- Is a top-level declaration a function statement? -/
def isFnTL : TopLevel → Bool
  | .fn _ _ => true
  | _ => false

/-- Right-hand sides of every assignment to `target` in a program, in
program order — the observable "position-expression chain" of an output
node's tree. -/
def assignRhssTL (target : String) : TopLevel → List Expr
  | .fn _ body =>
      body.filterMap (fun s =>
        match s with
        | .assign lhs rhs => if lhs == target then some rhs else none
        | _ => none)
  | _ => []

def assignRhss (target : String) (g : GAst) : List Expr :=
  match g with
  | .program tls => tls.flatMap (assignRhssTL target)
  | _ => []

/-- Backward reachability along edges: `Reaches graph edges a c` holds when
`a`'s output flows into `c` along zero or more edges, resolving each edge's
`from` id through `graph.nodes` exactly as the traversals do. -/
inductive Reaches (graph : Graph) (edges : List Edge) : Node → Node → Prop where
  | refl (n : Node) : Reaches graph edges n n
  | step {a b c : Node} (e : Edge) (he : e ∈ edges) (hto : e.«to» = c.id)
      (hfind : graph.nodes.find? (fun n => e.«from» == n.id) = some b)
      (hr : Reaches graph edges a b) : Reaches graph edges a c

/-! ### Key-set lemmas for the traversals -/

theorem mem_keys_mergeIds (a b : NodeIds) (x : String) :
    x ∈ idsKeys (mergeIds a b) ↔ x ∈ idsKeys a ∨ x ∈ idsKeys b := by
  unfold mergeIds idsKeys
  simp only [List.map_append, List.mem_append, List.mem_map, List.mem_filter]
  constructor
  · rintro (⟨q, ⟨hq, _⟩, rfl⟩ | h)
    · exact Or.inl ⟨q, hq, rfl⟩
    · exact Or.inr h
  · rintro (⟨q, hq, rfl⟩ | h)
    · by_cases hb : ∃ r ∈ b, r.fst = q.fst
      · obtain ⟨r, hr, hrq⟩ := hb
        exact Or.inr ⟨r, hr, hrq⟩
      · refine Or.inl ⟨q, ⟨hq, ?_⟩, rfl⟩
        rw [Bool.not_eq_true', List.any_eq_false]
        intro r hr
        simp only [beq_iff_eq]
        exact fun hrq => hb ⟨r, hr, hrq⟩
    · exact Or.inr h

theorem idsLookup_isSome_iff (ids : NodeIds) (x : String) :
    (idsLookup ids x).isSome ↔ x ∈ idsKeys ids := by
  induction ids with
  | nil => simp [idsLookup, idsKeys]
  | cons p rest ih =>
      by_cases h : x = p.fst
      · simp [idsLookup, idsKeys, List.lookup, h]
      · simp only [idsLookup, idsKeys, List.lookup, beq_false_of_ne h, List.map_cons,
          List.mem_cons, h, false_or] at ih ⊢
        exact ih

theorem mem_edge_filter (edges : List Edge) (nid : String) (e : Edge) :
    e ∈ edges.filter (fun e => e.«to» == nid) ↔ e ∈ edges ∧ e.«to» = nid := by
  simp [List.mem_filter]

/-- Key characterization of the `forEach` loop of `collectConnectedNodes`,
parameterized by the key predicate `K` the recursive calls satisfy. -/
theorem collectList_keys (cc : Node → Except String NodeIds) (graph : Graph)
    (K : String → Node → Prop)
    (hK : ∀ b r, cc b = .ok r → ∀ x, x ∈ idsKeys r ↔ K x b) :
    ∀ (es : List Edge) (acc out : NodeIds),
      collectList cc graph es acc = .ok out →
      ∀ x, x ∈ idsKeys out ↔
        x ∈ idsKeys acc ∨ ∃ e ∈ es, ∃ b,
          graph.nodes.find? (fun n => e.«from» == n.id) = some b ∧ K x b := by
  intro es
  induction es with
  | nil =>
      intro acc out h x
      simp only [collectList] at h
      cases h
      simp
  | cons e rest ih =>
      intro acc out h x
      simp only [collectList] at h
      split at h
      · cases h
      case _ fromNode hfind =>
        split at h
        · cases h
        case _ childIds hcc =>
          rw [ih (mergeIds acc childIds) out h x, mem_keys_mergeIds]
          constructor
          · rintro ((ha | hc) | ⟨e', he', b, hb, hK'⟩)
            · exact Or.inl ha
            · exact Or.inr ⟨e, List.mem_cons_self e rest, fromNode, hfind,
                (hK fromNode childIds hcc x).mp hc⟩
            · exact Or.inr ⟨e', List.mem_cons_of_mem e he', b, hb, hK'⟩
          · rintro (ha | ⟨e', he', b, hb, hK'⟩)
            · exact Or.inl (Or.inl ha)
            · rcases List.mem_cons.mp he' with rfl | he'
              · rw [hfind] at hb
                cases hb
                exact Or.inl (Or.inr ((hK fromNode childIds hcc x).mpr hK'))
              · exact Or.inr ⟨e', he', b, hb, hK'⟩

/-- The visited record returned by `collectConnectedNodes` holds exactly the
incoming ids plus the ids of the nodes backward-reachable from the start
node. -/
theorem collect_keys :
    ∀ (fuel : Nat) (graph : Graph) (edges : List Edge) (node : Node) (ids res : NodeIds),
      collectConnectedNodes fuel graph edges node ids = .ok res →
      ∀ x, x ∈ idsKeys res ↔
        x ∈ idsKeys ids ∨ ∃ m : Node, m.id = x ∧ Reaches graph edges m node := by
  intro fuel
  induction fuel with
  | zero => intro graph edges node ids res h; cases h
  | succ fuel ih =>
      intro graph edges node ids res h x
      simp only [collectConnectedNodes] at h
      cases hcl : collectList (fun fromNode => collectConnectedNodes fuel graph edges fromNode ids)
          graph (edges.filter (fun e => e.«to» == node.id)) ids <;> rw [hcl] at h
      · cases h
      case ok compiledIds =>
        cases h
        rw [mem_keys_mergeIds]
        have hmain := collectList_keys
          (fun fromNode => collectConnectedNodes fuel graph edges fromNode ids) graph
          (fun x b => x ∈ idsKeys ids ∨ ∃ m : Node, m.id = x ∧ Reaches graph edges m b)
          (fun b r hb x => ih graph edges b ids r hb x)
          (edges.filter (fun e => e.«to» == node.id)) ids compiledIds hcl x
        rw [hmain]
        have hnode : x ∈ idsKeys [(node.id, node)] ↔ x = node.id := by
          simp [idsKeys]
        rw [hnode]
        constructor
        · rintro ((ha | ⟨e, he, b, hb, (ha | ⟨m, rfl, hr⟩)⟩) | rfl)
          · exact Or.inl ha
          · exact Or.inl ha
          · rcases (mem_edge_filter edges node.id e).mp he with ⟨he', hto⟩
            exact Or.inr ⟨m, rfl, Reaches.step e he' hto hb hr⟩
          · exact Or.inr ⟨node, rfl, Reaches.refl node⟩
        · rintro (ha | ⟨m, rfl, hr⟩)
          · exact Or.inl (Or.inl ha)
          · cases hr with
            | refl => exact Or.inr rfl
            | step e he hto hfind hr' =>
                refine Or.inl (Or.inr ⟨e, (mem_edge_filter edges node.id e).mpr ⟨he, hto⟩,
                  _, hfind, Or.inr ⟨m, rfl, hr'⟩⟩)

/-- Key characterization of the wiring loop of `compileNode`, parameterized
by the key predicate `K` the recursive compilations satisfy. -/
theorem compileEdgeList_ids
    (cmp : NodesMap → Node → Except String (ShaderSections × Option Expr × NodeIds × NodesMap))
    (graph : Graph) (inputs : List (String × FillerL)) (nodeId : String)
    (K : String → Node → Prop)
    (hK : ∀ ns b res, cmp ns b = .ok res → ∀ x, x ∈ idsKeys res.2.2.1 ↔ K x b) :
    ∀ (es : List Edge) (st out : ShaderSections × NodeIds × NodesMap),
      compileEdgeList cmp graph inputs nodeId es st = .ok out →
      ∀ x, x ∈ idsKeys out.2.1 ↔
        x ∈ idsKeys st.2.1 ∨ ∃ e ∈ es, ∃ b,
          graph.nodes.find? (fun n => e.«from» == n.id) = some b ∧ K x b := by
  intro es
  induction es with
  | nil =>
      intro st out h x
      simp only [compileEdgeList] at h
      cases h
      simp
  | cons e rest ih =>
      intro st out h x
      obtain ⟨cont, ids0, nodes0⟩ := st
      simp only [compileEdgeList] at h
      split at h
      · cases h
      case _ fromNode hfind =>
        split at h
        · cases h
        case _ inputSections fillerOpt childIds nodes1 hcmp =>
          split at h
          · cases h
          case _ fillerAst =>
            split at h
            · cases h
            case _ filler hlook =>
              split at h
              · cases h
              case _ ctx hctx =>
                split at h
                · cases h
                case _ ast1 hfill =>
                  rw [ih _ out h x]
                  simp only [mem_keys_mergeIds]
                  have hchild := hK nodes0 fromNode (inputSections, some fillerAst, childIds, nodes1) hcmp x
                  constructor
                  · rintro ((ha | hc) | ⟨e', he', b, hb, hK'⟩)
                    · exact Or.inl ha
                    · exact Or.inr ⟨e, List.mem_cons_self e rest, fromNode, hfind, hchild.mp hc⟩
                    · exact Or.inr ⟨e', List.mem_cons_of_mem e he', b, hb, hK'⟩
                  · rintro (ha | ⟨e', he', b, hb, hK'⟩)
                    · exact Or.inl (Or.inl ha)
                    · rcases List.mem_cons.mp he' with rfl | he'
                      · rw [hfind] at hb
                        cases hb
                        exact Or.inl (Or.inr (hchild.mpr hK'))
                      · exact Or.inr ⟨e', he', b, hb, hK'⟩

/-- The visited record returned by `compileNode` holds exactly the incoming
ids plus the ids of the nodes backward-reachable from the compiled node. -/
theorem compileNode_keys :
    ∀ (fuel : Nat) (engine : Engine) (graph : Graph) (edges : List Edge) (stage : ShaderStage)
      (nodes : NodesMap) (node : Node) (ids : NodeIds)
      (res : ShaderSections × Option Expr × NodeIds × NodesMap),
      compileNode fuel engine graph edges stage nodes node ids = .ok res →
      ∀ x, x ∈ idsKeys res.2.2.1 ↔
        x ∈ idsKeys ids ∨ ∃ m : Node, m.id = x ∧ Reaches graph edges m node := by
  intro fuel
  induction fuel with
  | zero => intro _ _ _ _ _ _ _ res h; cases h
  | succ fuel ih =>
      intro engine graph edges stage nodes node ids res h x
      simp only [compileNode] at h
      split at h
      · cases h
      case _ parser hparser =>
        split at h
        · cases h
        case _ nodeContext hctx =>
          split at h
          · cases h
          case _ sp hsp =>
            split at h
            case isTrue hempty =>
              cases h
              rw [mem_keys_mergeIds]
              have hsingle : x ∈ idsKeys [(node.id, node)] ↔ x = node.id := by
                simp [idsKeys]
              rw [hsingle]
              constructor
              · rintro (ha | rfl)
                · exact Or.inl ha
                · exact Or.inr ⟨node, rfl, Reaches.refl node⟩
              · rintro (ha | ⟨m, rfl, hr⟩)
                · exact Or.inl ha
                · cases hr with
                  | refl => exact Or.inr rfl
                  | step e he hto hfind hr' =>
                      exfalso
                      have hmem : e ∈ edges.filter (fun e => e.«to» == node.id) :=
                        (mem_edge_filter edges node.id e).mpr ⟨he, hto⟩
                      rw [List.isEmpty_iff] at hempty
                      rw [hempty] at hmem
                      cases hmem
            case isFalse hempty =>
              split at h
              · cases h
              case _ cont compiledIds nodes1 hcel =>
                cases h
                rw [mem_keys_mergeIds]
                have hmain := compileEdgeList_ids
                  (fun ns n => compileNode fuel engine graph edges stage ns n ids) graph
                  nodeContext.inputs node.id
                  (fun x b => x ∈ idsKeys ids ∨ ∃ m : Node, m.id = x ∧ Reaches graph edges m b)
                  (fun ns b r hb x => ih engine graph edges stage ns b ids r hb x)
                  (edges.filter (fun e => e.«to» == node.id))
                  (emptyShaderSections, ids, nodes) (cont, compiledIds, nodes1) hcel x
                rw [hmain]
                have hsingle : x ∈ idsKeys [(node.id, node)] ↔ x = node.id := by
                  simp [idsKeys]
                rw [hsingle]
                constructor
                · rintro ((ha | ⟨e, he, b, hb, (ha | ⟨m, rfl, hr⟩)⟩) | rfl)
                  · exact Or.inl ha
                  · exact Or.inl ha
                  · rcases (mem_edge_filter edges node.id e).mp he with ⟨he', hto⟩
                    exact Or.inr ⟨m, rfl, Reaches.step e he' hto hb hr⟩
                  · exact Or.inr ⟨node, rfl, Reaches.refl node⟩
                · rintro (ha | ⟨m, rfl, hr⟩)
                  · exact Or.inl (Or.inl ha)
                  · cases hr with
                    | refl => exact Or.inr rfl
                    | step e he hto hfind hr' =>
                        exact Or.inl (Or.inr ⟨e, (mem_edge_filter edges node.id e).mpr ⟨he, hto⟩,
                          _, hfind, Or.inr ⟨m, rfl, hr'⟩⟩)

/-! ### Dangling-edge abort lemmas -/

theorem collectList_error_of_dangling (cc : Node → Except String NodeIds) (graph : Graph)
    (e : Edge) (hfrom : graph.nodes.find? (fun n => e.«from» == n.id) = none) :
    ∀ (es : List Edge) (acc : NodeIds), e ∈ es →
      (collectList cc graph es acc).isOk = false := by
  intro es
  induction es with
  | nil => intro acc h; cases h
  | cons e0 rest ih =>
      intro acc hmem
      simp only [collectList]
      rcases List.mem_cons.mp hmem with rfl | hmem'
      · simp only [hfrom]
        rfl
      · split
        · rfl
        · split
          · rfl
          · exact ih _ hmem'

theorem compileEdgeList_error_of_dangling
    (cmp : NodesMap → Node → Except String (ShaderSections × Option Expr × NodeIds × NodesMap))
    (graph : Graph) (inputs : List (String × FillerL)) (nodeId : String)
    (e : Edge) (hfrom : graph.nodes.find? (fun n => e.«from» == n.id) = none) :
    ∀ (es : List Edge) (st : ShaderSections × NodeIds × NodesMap), e ∈ es →
      (compileEdgeList cmp graph inputs nodeId es st).isOk = false := by
  intro es
  induction es with
  | nil => intro st h; cases h
  | cons e0 rest ih =>
      intro st hmem
      obtain ⟨cont, ids0, nodes0⟩ := st
      simp only [compileEdgeList]
      rcases List.mem_cons.mp hmem with rfl | hmem'
      · simp only [hfrom]
        rfl
      · split
        · rfl
        · split
          · rfl
          · split
            · rfl
            · split
              · rfl
              · split
                · rfl
                · split
                  · rfl
                  · exact ih _ hmem'

theorem collect_error_of_dangling (graph : Graph) (edges : List Edge) (e : Edge) (node : Node)
    (he : e ∈ edges) (hto : e.«to» = node.id)
    (hfrom : graph.nodes.find? (fun n => e.«from» == n.id) = none) :
    ∀ fuel ids, (collectConnectedNodes (fuel + 1) graph edges node ids).isOk = false := by
  intro fuel ids
  simp only [collectConnectedNodes]
  have hmem : e ∈ edges.filter (fun e => e.«to» == node.id) :=
    (mem_edge_filter edges node.id e).mpr ⟨he, hto⟩
  have hlist := collectList_error_of_dangling
    (fun fromNode => collectConnectedNodes fuel graph edges fromNode ids) graph e hfrom
    (edges.filter (fun e => e.«to» == node.id)) ids hmem
  split
  · rfl
  · rename_i compiledIds hcl
    rw [hcl] at hlist
    cases hlist

theorem compileNode_error_of_dangling (engine : Engine) (graph : Graph) (edges : List Edge)
    (stage : ShaderStage) (e : Edge) (node : Node)
    (he : e ∈ edges) (hto : e.«to» = node.id)
    (hfrom : graph.nodes.find? (fun n => e.«from» == n.id) = none) :
    ∀ fuel nodes ids, (compileNode (fuel + 1) engine graph edges stage nodes node ids).isOk = false := by
  intro fuel nodes ids
  simp only [compileNode]
  have hmem : e ∈ edges.filter (fun e => e.«to» == node.id) :=
    (mem_edge_filter edges node.id e).mpr ⟨he, hto⟩
  have hne : (edges.filter (fun e => e.«to» == node.id)).isEmpty = false := by
    rw [List.isEmpty_eq_false_iff_exists_mem]
    exact ⟨e, hmem⟩
  split
  · rfl
  · rename_i parser hparser
    split
    · rfl
    · rename_i nodeContext hctx
      split
      · rfl
      · rename_i sp hsp
        split
        · rename_i hempty
          rw [hne] at hempty
          cases hempty
        · rename_i hempty
          split
          · rfl
          · rename_i st hcel
            have hlist := compileEdgeList_error_of_dangling
              (fun ns n => compileNode fuel engine graph edges stage ns n ids)
              graph nodeContext.inputs node.id e hfrom
              (edges.filter (fun e => e.«to» == node.id))
              (emptyShaderSections, ids, nodes) hmem
            rw [hcel] at hlist
            cases hlist

/-! ### Claim theorems -/

/-- C6, counterexample: `collectConnectedNodes` is **not** memoized.  On the
diamond graph the instrumented traversal — which returns the same record as
the plain one — computes the shared node `c` twice, and a call whose visited
mapping already contains the start node `a` still recurses into `a`'s
children (a memoized traversal would return the mapping unchanged). -/
theorem c6_collect_counterexample :
    (collectConnectedNodesTrace 10 diamond diamond.edges outF []).map
        (fun p => p.snd.count "c") = .ok 2
    ∧ (collectConnectedNodesTrace 10 diamond diamond.edges outF []).map Prod.fst =
        collectConnectedNodes 10 diamond diamond.edges outF []
    ∧ (collectConnectedNodes 10 diamond diamond.edges nA [("a", nA)]).map idsKeys =
        .ok ["c", "a"] :=
  ⟨rfl, rfl, rfl⟩

/-- C6 (amended): `collectConnectedNodes` traverses depth-first backward over
incoming edges and returns a mapping holding exactly the incoming ids plus
the ids of every node transitively reachable backward from the start node;
the start node is always present, and a node with no incoming edges returns
just the incoming ids plus itself (base case).  Contrary to the claim it is
not memoized: ids already in the visited mapping are revisited and
recomputed (see the counterexample). -/
theorem c6_collect_reachability
    (fuel : Nat) (graph : Graph) (edges : List Edge) (node : Node) (ids res : NodeIds)
    (h : collectConnectedNodes fuel graph edges node ids = .ok res) :
    (∀ x, x ∈ idsKeys res ↔
        x ∈ idsKeys ids ∨ ∃ m : Node, m.id = x ∧ Reaches graph edges m node)
    ∧ (idsLookup res node.id).isSome
    ∧ (edges.filter (fun e => e.«to» == node.id) = [] →
        res = mergeIds ids [(node.id, node)]) := by
  refine ⟨collect_keys fuel graph edges node ids res h, ?_, ?_⟩
  · rw [idsLookup_isSome_iff, collect_keys fuel graph edges node ids res h]
    exact Or.inr ⟨node, rfl, Reaches.refl node⟩
  · intro hnil
    cases fuel with
    | zero => cases h
    | succ fuel =>
        simp only [collectConnectedNodes, hnil, collectList] at h
        cases h
        rfl

/-- C6 witness: the amended theorem applied to the diamond graph. -/
theorem c6_collect_reachability_witness :
    (∀ x, x ∈ idsKeys diamondRes ↔
        x ∈ idsKeys ([] : NodeIds) ∨ ∃ m : Node, m.id = x ∧ Reaches diamond diamond.edges m outF)
    ∧ (idsLookup diamondRes outF.id).isSome
    ∧ (diamond.edges.filter (fun e => e.«to» == outF.id) = [] →
        diamondRes = mergeIds [] [(outF.id, outF)]) :=
  c6_collect_reachability 10 diamond diamond.edges outF [] diamondRes rfl

/-- C7, counterexample: a graph carrying an edge whose `to` id resolves to no
node still compiles successfully — the edge is silently ignored, no
`DanglingEdge` error is raised. -/
theorem c7_dangling_edge_counterexample :
    (compileGraph 10 ⟨0, []⟩ testEngine gBad).isOk = true
    ∧ gBad.edges.any (fun e => gBad.nodes.all (fun n => n.id != e.«to»)) = true :=
  ⟨rfl, rfl⟩

/-- C7 (amended): only a *traversed* dangling edge aborts: when an edge into
the node being collected or compiled has a `from` id resolving to no node,
both `collectConnectedNodes` and `compileNode` fail (with the source's
`Node for edge ... not found` error); an edge whose `to` id resolves to no
node is never selected by any traversal and never aborts (see the
counterexample). -/
theorem c7_dangling_edge_aborts
    (graph : Graph) (edges : List Edge) (e : Edge) (node : Node)
    (he : e ∈ edges) (hto : e.«to» = node.id)
    (hfrom : graph.nodes.find? (fun n => e.«from» == n.id) = none) :
    (∀ fuel ids, (collectConnectedNodes (fuel + 1) graph edges node ids).isOk = false)
    ∧ ∀ fuel engine stage nodes ids,
        (compileNode (fuel + 1) engine graph edges stage nodes node ids).isOk = false :=
  ⟨fun fuel ids => collect_error_of_dangling graph edges e node he hto hfrom fuel ids,
   fun fuel engine stage nodes ids =>
     compileNode_error_of_dangling engine graph edges stage e node he hto hfrom fuel nodes ids⟩

/-- C7 witness: the amended theorem applied to a graph with a dangling-`from`
edge into the fragment output. -/
theorem c7_dangling_edge_aborts_witness :
    (collectConnectedNodes 6 gDangling gDangling.edges outF []).isOk = false
    ∧ (compileNode 6 testEngine gDangling gDangling.edges .fragment [] outF []).isOk = false :=
  ⟨(c7_dangling_edge_aborts gDangling gDangling.edges gDanglingEdge outF
      (List.mem_cons_self _ _) rfl rfl).1 5 [],
   (c7_dangling_edge_aborts gDangling gDangling.edges gDanglingEdge outF
      (List.mem_cons_self _ _) rfl rfl).2 5 testEngine .fragment [] []⟩

/-- C8: compiling the same graph twice, each time with a fresh engine context
(empty node-context map; the `compileCount` may be anything, it is only
incremented, never read), yields identical fragment and vertex output
sections: `compileGraph` is deterministic in the graph and engine inputs. -/
theorem c8_compile_deterministic (fuel : Nat) (engine : Engine) (graph : Graph)
    (count1 count2 : Nat) :
    (compileGraph fuel ⟨count1, []⟩ engine graph).map (fun t => (t.1.fragment, t.1.vertex)) =
      (compileGraph fuel ⟨count2, []⟩ engine graph).map (fun t => (t.1.fragment, t.1.vertex)) := by
  unfold compileGraph
  cases compileGraphInner fuel engine graph [] <;> rfl

/-- Prepending into the first function statement skips the non-function
prefix. -/
theorem prependToFirstFn_spec (s : Stmt) :
    ∀ (pre post : List TopLevel) (fname : String) (body : List Stmt),
      (∀ tl ∈ pre, isFnTL tl = false) →
      prependToFirstFn (pre ++ .fn fname body :: post) s =
        some (pre ++ .fn fname (s :: body) :: post) := by
  intro pre
  induction pre with
  | nil => intro post fname body _; rfl
  | cons tl rest ih =>
      intro post fname body h
      have htl : isFnTL tl = false := h tl (List.mem_cons_self tl rest)
      cases tl with
      | fn n b => cases htl
      | uniformDecl q t ns =>
          simp only [List.cons_append, prependToFirstFn, List.append_eq]
          rw [ih post fname body (fun tl h' => h tl (List.mem_cons_of_mem _ h'))]
          rfl
      | exprTL e =>
          simp only [List.cons_append, prependToFirstFn, List.append_eq]
          rw [ih post fname body (fun tl h' => h tl (List.mem_cons_of_mem _ h'))]
          rfl

/-- Prepending a `raw` statement into the first function leaves every
assignment right-hand side in place. -/
theorem assignRhss_prependToFirstFn (target : String) (t : String) :
    ∀ (tls tls' : List TopLevel), prependToFirstFn tls (Stmt.raw t) = some tls' →
      tls'.flatMap (assignRhssTL target) = tls.flatMap (assignRhssTL target) := by
  intro tls
  induction tls with
  | nil => intro tls' h; cases h
  | cons tl rest ih =>
      intro tls' h
      cases tl with
      | fn n body =>
          simp only [prependToFirstFn] at h
          cases h
          simp [assignRhssTL]
      | uniformDecl q ty ns =>
          simp only [prependToFirstFn] at h
          cases hrest : prependToFirstFn rest (Stmt.raw t) with
          | none => rw [hrest] at h; cases h
          | some rest' =>
              rw [hrest] at h
              cases h
              simp only [List.flatMap_cons]
              rw [ih rest' hrest]
      | exprTL e =>
          simp only [prependToFirstFn] at h
          cases hrest : prependToFirstFn rest (Stmt.raw t) with
          | none => rw [hrest] at h; cases h
          | some rest' =>
              rw [hrest] at h
              cases h
              simp only [List.flatMap_cons]
              rw [ih rest' hrest]

/-- C1: a vertex-stage node not reachable backward from the vertex output
whose `nextStageNodeId` is reachable backward from the fragment output gets a
synthesized `mainStmts` edge into the vertex output appended to the edge list
compiled on the vertex side (`vertexStageEdges`, the list `compileGraph`
hands to the vertex `compileNode`); wiring the `mainStmts` port prepends the
statement built from the filler expression at the top of the first (entry)
function's body, and that wiring leaves every `gl_Position` assignment
right-hand side — the position-expression chain — unchanged. -/
theorem c1_orphan_vertex_wiring
    (fuel1 fuel2 : Nat) (engine : Engine) (graph : Graph) (nodes0 : NodesMap)
    (outputFrag outputVert : Node)
    (fragRes : ShaderSections × Option Expr × NodeIds × NodesMap) (vertexIds : NodeIds)
    (node : Node) (nid : String)
    (hfrag : compileNode fuel1 engine graph graph.edges .fragment nodes0 outputFrag [] = .ok fragRes)
    (hvert : collectConnectedNodes fuel2 graph graph.edges outputVert [] = .ok vertexIds)
    (hmem : node ∈ graph.nodes)
    (hstage : node.stage = some .vertex)
    (hnext : node.nextStageNodeId = some nid)
    (hreach : ∃ m : Node, m.id = nid ∧ Reaches graph graph.edges m outputFrag)
    (hnreach : ¬∃ m : Node, m.id = node.id ∧ Reaches graph graph.edges m outputVert) :
    (Edge.mk node.id outputVert.id "main" "mainStmts" (some .vertex) ∈
        vertexStageEdges graph fragRes.2.2.1 vertexIds outputVert)
    ∧ (∀ (e : Expr) (pre post : List TopLevel) (fname : String) (body : List Stmt),
        (∀ tl ∈ pre, isFnTL tl = false) →
        mainStmtsFiller e (.program (pre ++ .fn fname body :: post)) =
          .ok (.program (pre ++ .fn fname (makeFnStatement (generateExpr e) :: body) :: post)))
    ∧ (∀ (e : Expr) (g g' : GAst), mainStmtsFiller e g = .ok g' →
        assignRhss "gl_Position" g' = assignRhss "gl_Position" g) := by
  refine ⟨?_, ?_, ?_⟩
  · have hfragmem : nid ∈ idsKeys fragRes.2.2.1 :=
      (compileNode_keys fuel1 engine graph graph.edges .fragment nodes0 outputFrag [] fragRes
        hfrag nid).mpr (Or.inr hreach)
    have hfragsome : (idsLookup fragRes.2.2.1 nid).isSome = true :=
      (idsLookup_isSome_iff _ _).mpr hfragmem
    have hvertnone : idsLookup vertexIds node.id = none := by
      rw [← Option.not_isSome_iff_eq_none]
      intro hs
      have hk : node.id ∈ idsKeys vertexIds := (idsLookup_isSome_iff _ _).mp hs
      rcases (collect_keys fuel2 graph graph.edges outputVert [] vertexIds hvert node.id).mp hk with
        hid | hex
      · cases hid
      · exact hnreach hex
    have hcond : (node.stage == some ShaderStage.vertex &&
        (match node.nextStageNodeId with
         | some nid => (idsLookup fragRes.2.2.1 nid).isSome
         | none => false) &&
        (idsLookup vertexIds node.id).isNone) = true := by
      rw [hstage, hnext, hvertnone]
      simp [hfragsome]
    refine List.mem_append_right _ ?_
    exact List.mem_map.mpr ⟨node, List.mem_filter.mpr ⟨hmem, hcond⟩, rfl⟩
  · intro e pre post fname body hpre
    simp only [mainStmtsFiller]
    rw [prependToFirstFn_spec (makeFnStatement (generateExpr e)) pre post fname body hpre]
  · intro e g g' h
    cases g with
    | empty => cases h
    | exprAst _ => cases h
    | program tls =>
        simp only [mainStmtsFiller] at h
        cases hp : prependToFirstFn tls (makeFnStatement (generateExpr e)) with
        | none => rw [hp] at h; cases h
        | some tls2 =>
            rw [hp] at h
            cases h
            simp only [assignRhss]
            exact assignRhss_prependToFirstFn "gl_Position" (generateExpr e) tls tls2 hp

/-- C1 witness: on the orphan test graph, the synthesized `mainStmts` edge
from the orphan `nodeO` to the vertex output is among the vertex-stage
edges. -/
theorem c1_orphan_vertex_wiring_witness :
    Edge.mk nodeO.id outV.id "main" "mainStmts" (some .vertex) ∈
      vertexStageEdges testGraph c1FragRes.2.2.1 c1VertexIds outV :=
  (c1_orphan_vertex_wiring 10 10 testEngine testGraph c1Nodes0 outF outV c1FragRes c1VertexIds
    nodeO "f1" rfl rfl
    (by simp [testGraph])
    rfl rfl
    ⟨nodeF, rfl, Reaches.step edgeF (List.mem_cons_self _ _) rfl rfl (Reaches.refl nodeF)⟩
    (by
      rintro ⟨m, hid, hr⟩
      have hk := (collect_keys 10 testGraph testGraph.edges outV [] c1VertexIds rfl nodeO.id).mpr
        (Or.inr ⟨m, hid, hr⟩)
      revert hk
      decide)).1

/-! ### Expression-synthesis lemmas (C3/C9) -/

theorem splitSpaces_no_space : ∀ t : List Char, ' ' ∉ t → splitSpaces t = [t] := by
  intro t
  induction t with
  | nil => intro _; rfl
  | cons c rest ih =>
      intro h
      have hc : ¬c = ' ' := fun hc => h (hc ▸ List.mem_cons_self c rest)
      simp only [splitSpaces, if_neg hc]
      rw [ih (fun hm => h (List.mem_cons_of_mem c hm))]

theorem splitSpaces_append (t : List Char) (rest : List Char)
    (hns : ' ' ∉ t) (hne : t ≠ []) :
    splitSpaces (t ++ ' ' :: rest) = t :: splitSpaces rest := by
  induction t with
  | nil => cases hne rfl
  | cons c t' ih =>
      have hc : ¬c = ' ' := fun hc => hns (hc ▸ List.mem_cons_self _ _)
      simp only [List.cons_append, splitSpaces, if_neg hc]
      cases t' with
      | nil =>
          simp [splitSpaces]
      | cons d t'' =>
          have hih := ih (fun hm => hns (List.mem_cons_of_mem _ hm)) (by simp)
          rw [show (d :: t'').append (' ' :: rest) = (d :: t'') ++ ' ' :: rest from rfl, hih]

theorem chainTokens_interOp (opL : List Char) :
    ∀ (toks : List (List Char)) (acc : Expr),
      exprIdents (chainTokens acc (interOp opL toks)) =
        exprIdents acc ++ toks.flatMap (fun t => exprIdents (parseToken t))
      ∧ exprOps (chainTokens acc (interOp opL toks)) =
        exprOps acc ++ toks.flatMap (fun t => String.mk opL :: exprOps (parseToken t)) := by
  intro toks
  induction toks with
  | nil => intro acc; simp [interOp, chainTokens]
  | cons t rest ih =>
      intro acc
      have hstep : chainTokens acc (interOp opL (t :: rest)) =
          chainTokens (.binop (String.mk opL) acc (parseToken t)) (interOp opL rest) := rfl
      have hrec := ih (.binop (String.mk opL) acc (parseToken t))
      constructor
      · rw [hstep, hrec.1]
        simp [exprIdents, List.append_assoc]
      · rw [hstep, hrec.2]
        simp [exprOps, List.append_assoc]

theorem splitSpaces_joinSep (op : String) (hop1 : ' ' ∉ op.data) (hop2 : op.data ≠ []) :
    ∀ (ts : List String) (t0 : String),
      (∀ t ∈ ts, ' ' ∉ t.data ∧ t.data ≠ []) →
      (' ' ∉ t0.data ∧ t0.data ≠ []) →
      splitSpaces (joinSep (" " ++ op ++ " ") (t0 :: ts)).data =
        t0.data :: interOp op.data (ts.map String.data) := by
  intro ts
  induction ts with
  | nil =>
      intro t0 _ ht0
      simp only [joinSep, interOp, List.map_nil]
      exact splitSpaces_no_space t0.data ht0.1
  | cons t1 rest ih =>
      intro t0 hts ht0
      have hjoin : joinSep (" " ++ op ++ " ") (t0 :: t1 :: rest) =
          t0 ++ (" " ++ op ++ " ") ++ joinSep (" " ++ op ++ " ") (t1 :: rest) := rfl
      have hdata : (t0 ++ (" " ++ op ++ " ") ++ joinSep (" " ++ op ++ " ") (t1 :: rest)).data =
          t0.data ++ ' ' :: (op.data ++ ' ' :: (joinSep (" " ++ op ++ " ") (t1 :: rest)).data) := by
        simp [String.data_append]
      rw [hjoin, hdata, splitSpaces_append t0.data _ ht0.1 ht0.2,
        splitSpaces_append op.data _ hop1 hop2,
        ih t1 (fun t h => hts t (List.mem_cons_of_mem _ h)) (hts t1 (List.mem_cons_self _ _))]
      simp [interOp]

theorem parseToken_short (t : List Char) (h : t.length < 2) :
    parseToken t = .ident (String.mk t) := by
  simp only [parseToken]
  rw [if_neg]
  rintro ⟨h2, -⟩
  omega

theorem flatMap_of_map {α β γ : Type _} (f : α → β) (g : β → List γ) :
    ∀ l : List α, (l.map f).flatMap g = l.flatMap (fun a => g (f a)) := by
  intro l
  induction l with
  | nil => rfl
  | cons a rest ih => simp only [List.map_cons, List.flatMap_cons, ih]

theorem flatMap_congr_mem {α β : Type _} (f g : α → List β) :
    ∀ l : List α, (∀ a ∈ l, f a = g a) → l.flatMap f = l.flatMap g := by
  intro l
  induction l with
  | nil => intro _; rfl
  | cons a rest ih =>
      intro h
      simp only [List.flatMap_cons, h a (List.mem_cons_self a rest),
        ih (fun a' h' => h a' (List.mem_cons_of_mem _ h'))]

theorem flatMap_singleton_id {α : Type _} : ∀ l : List α, l.flatMap (fun a => [a]) = l := by
  intro l
  induction l with
  | nil => rfl
  | cons a rest ih => simp only [List.flatMap_cons, ih, List.singleton_append]

theorem flatMap_const_singleton {α β : Type _} (b : β) :
    ∀ l : List α, l.flatMap (fun _ => [b]) = List.replicate l.length b := by
  intro l
  induction l with
  | nil => rfl
  | cons a rest ih =>
      simp only [List.flatMap_cons, ih, List.length_cons, List.replicate_succ,
        List.singleton_append]

theorem makeExpression_joinSep (op : String) (hop1 : ' ' ∉ op.data) (hop2 : op.data ≠ [])
    (ts : List String)
    (hts : ∀ t ∈ ts, ' ' ∉ t.data ∧ t.data ≠ [] ∧ t.data.length < 2) :
    ∀ t0 : String, ' ' ∉ t0.data → t0.data ≠ [] → t0.data.length < 2 →
      exprIdents (makeExpression (joinSep (" " ++ op ++ " ") (t0 :: ts))) = t0 :: ts
      ∧ exprOps (makeExpression (joinSep (" " ++ op ++ " ") (t0 :: ts))) =
          List.replicate ts.length op := by
  intro t0 h1 h2 h3
  have hsplit := splitSpaces_joinSep op hop1 hop2 ts t0
    (fun t h => ⟨(hts t h).1, (hts t h).2.1⟩) ⟨h1, h2⟩
  have hme : makeExpression (joinSep (" " ++ op ++ " ") (t0 :: ts)) =
      chainTokens (parseToken t0.data) (interOp op.data (ts.map String.data)) := by
    simp only [makeExpression]
    rw [show (joinSep (" " ++ op ++ " ") (t0 :: ts)).toList =
      (joinSep (" " ++ op ++ " ") (t0 :: ts)).data from rfl, hsplit]
  have hchain := chainTokens_interOp op.data (ts.map String.data) (parseToken t0.data)
  have ht0 : parseToken t0.data = .ident t0 := by
    rw [parseToken_short t0.data h3]
  have htok : ∀ t ∈ ts, parseToken t.data = Expr.ident t := by
    intro t ht
    rw [parseToken_short t.data (hts t ht).2.2]
  constructor
  · rw [hme, hchain.1, ht0, flatMap_of_map,
      flatMap_congr_mem _ (fun t => [t]) ts (fun t ht => by rw [htok t ht]; rfl),
      flatMap_singleton_id]
    rfl
  · rw [hme, hchain.2, ht0, flatMap_of_map,
      flatMap_congr_mem _ (fun _ => [String.mk op.data]) ts (fun t ht => by rw [htok t ht]; rfl),
      flatMap_const_singleton]
    rfl

/-- Alphabet letters below index 26 are nonempty space-free single
characters. -/
theorem alphabetCharAt_facts : ∀ i : Nat, i < 26 →
    ' ' ∉ (alphabetCharAt i).data ∧ (alphabetCharAt i).data ≠ [] ∧
      (alphabetCharAt i).data.length < 2 := by decide

/-- Alphabet letters below index 26 are pairwise distinct. -/
theorem alphabetCharAt_inj : ∀ i : Nat, i < 26 → ∀ j : Nat, j < 26 →
    alphabetCharAt i = alphabetCharAt j → i = j := by decide

/-- The expression the binary parser synthesizes for `1 ≤ k ≤ 26` connected
edges: the first `k` alphabet letters chained left-associatively with the
node's operator. -/
theorem binaryProduceAst_chain_spec
    (op : String) (ed : EngineData) (graph : Graph) (node : Node)
    (edges : List Edge) (k : Nat)
    (hk : edges.length = k) (hk1 : 1 ≤ k) (hk26 : k ≤ 26)
    (hop : op = "+" ∨ op = "*") :
    ∃ e, binaryProduceAst op ed graph node edges = .ok (.program [.exprTL e])
      ∧ exprIdents e = (List.range k).map alphabetCharAt
      ∧ exprOps e = List.replicate (k - 1) op := by
  have hop1 : ' ' ∉ op.data := by rcases hop with rfl | rfl <;> decide
  have hop2 : op.data ≠ [] := by rcases hop with rfl | rfl <;> decide
  obtain ⟨k', rfl⟩ : ∃ k', k = k' + 1 := ⟨k - 1, by omega⟩
  have hrange : (List.range (k' + 1)).map alphabetCharAt =
      alphabetCharAt 0 :: (List.range k').map (fun i => alphabetCharAt (i + 1)) := by
    rw [List.range_succ_eq_map, List.map_cons, List.map_map]
    rfl
  have hts : ∀ t ∈ (List.range k').map (fun i => alphabetCharAt (i + 1)),
      ' ' ∉ t.data ∧ t.data ≠ [] ∧ t.data.length < 2 := by
    intro t ht
    rcases List.mem_map.mp ht with ⟨i, hi, rfl⟩
    exact alphabetCharAt_facts (i + 1) (by have := List.mem_range.mp hi; omega)
  have h0 := alphabetCharAt_facts 0 (by omega)
  have hmk := makeExpression_joinSep op hop1 hop2
    ((List.range k').map (fun i => alphabetCharAt (i + 1))) hts
    (alphabetCharAt 0) h0.1 h0.2.1 h0.2.2
  refine ⟨makeExpression (joinSep (" " ++ op ++ " ")
    ((List.range (k' + 1)).map alphabetCharAt)), ?_, ?_, ?_⟩
  · simp only [binaryProduceAst, hk]
    rw [if_pos (Nat.succ_ne_zero k')]
  · rw [hrange, hmk.1]
  · rw [hrange, hmk.2]
    simp

/-! ### Mangling lemmas (C2) -/

theorem flatMap_map_eq {α β : Type _} (h : α → α) (db : α → List β)
    (hp : ∀ a, db (h a) = db a) : ∀ l : List α, (l.map h).flatMap db = l.flatMap db := by
  intro l
  induction l with
  | nil => rfl
  | cons a rest ih => simp only [List.map_cons, List.flatMap_cons, hp, ih]

theorem flatMap_map_map {α β : Type _} (h : α → α) (db : α → List β) (f : β → β)
    (hp : ∀ a, db (h a) = (db a).map f) :
    ∀ l : List α, (l.map h).flatMap db = (l.flatMap db).map f := by
  intro l
  induction l with
  | nil => rfl
  | cons a rest ih => simp only [List.map_cons, List.flatMap_cons, hp, ih, List.map_append]

theorem declaredBindings_renameBindings (f : String → String) (g : GAst) :
    declaredBindings (renameBindings f g) = (declaredBindings g).map f := by
  cases g with
  | empty => rfl
  | exprAst e => rfl
  | program tls =>
      simp only [renameBindings, declaredBindings]
      exact flatMap_map_map _ _ f (fun tl => by cases tl <;> rfl) tls

theorem declaredBindings_renameFunctions (f : String → String) (g : GAst) :
    declaredBindings (renameFunctions f g) = declaredBindings g := by
  cases g with
  | empty => rfl
  | exprAst e => rfl
  | program tls =>
      simp only [renameFunctions, declaredBindings]
      exact flatMap_map_eq _ _ (fun tl => by cases tl <;> rfl) tls

theorem declaredBindings_convert300 (g : GAst) :
    declaredBindings (convert300MainToReturn g) = declaredBindings g := by
  cases g with
  | empty => rfl
  | exprAst e => rfl
  | program tls =>
      simp only [convert300MainToReturn, declaredBindings]
      refine flatMap_map_eq _ _ (fun tl => ?_) tls
      cases tl with
      | fn n body => by_cases h : n = "main" <;> simp [h]
      | uniformDecl q t ns => rfl
      | exprTL e => rfl

theorem declaredBindings_returnGlPosition (g : GAst) :
    declaredBindings (returnGlPosition g) = declaredBindings g := by
  cases g with
  | empty => rfl
  | exprAst e => rfl
  | program tls =>
      simp only [returnGlPosition, declaredBindings]
      exact flatMap_map_eq _ _ (fun tl => by cases tl <;> rfl) tls

theorem declaredBindings_returnGlPositionVec3Right (g : GAst) :
    declaredBindings (returnGlPositionVec3Right g) = declaredBindings g := by
  cases g with
  | empty => rfl
  | exprAst e => rfl
  | program tls =>
      simp only [returnGlPositionVec3Right, declaredBindings]
      exact flatMap_map_eq _ _ (fun tl => by cases tl <;> rfl) tls

/-- What the fragment shader parser does to declared bindings, away from the
three → babylon hack: every declared name is mapped through the mangling
mapper. -/
theorem declaredBindings_shaderFragmentProduceAst
    (ed : EngineData) (g : Graph) (n : Node) (es : List Edge) (s : GAst) (a : GAst)
    (hs : n.source = some s)
    (hhack : ¬(n.originalEngine = some "three" ∧ ed.name = "babylon"))
    (h : shaderFragmentProduceAst ed g n es = .ok a) :
    declaredBindings a = (declaredBindings s).map (mangleMapper ed n) := by
  simp only [shaderFragmentProduceAst, hs] at h
  have hcond : (n.originalEngine == some "three" && ed.name == "babylon") = false := by
    by_cases h1 : n.originalEngine = some "three"
    · by_cases h2 : ed.name = "babylon"
      · exact absurd ⟨h1, h2⟩ hhack
      · simp [h2]
    · simp [h1]
  rw [hcond] at h
  simp only [Bool.false_eq_true, if_false] at h
  cases h
  rw [declaredBindings_renameFunctions, declaredBindings_renameBindings,
    declaredBindings_convert300]
  rfl

/-- What the vertex shader parser does to declared bindings. -/
theorem declaredBindings_shaderVertexProduceAst
    (ed : EngineData) (g : Graph) (n : Node) (es : List Edge) (s : GAst) (b : GAst)
    (hs : n.source = some s)
    (h : shaderVertexProduceAst ed g n es = .ok b) :
    declaredBindings b = (declaredBindings s).map (mangleMapper ed n) := by
  simp only [shaderVertexProduceAst, hs] at h
  cases h
  rw [declaredBindings_renameFunctions, declaredBindings_renameBindings]
  cases hl : doesLinkThruShader g n
  · simp only [Bool.false_eq_true, if_false, declaredBindings_returnGlPosition]
    rfl
  · simp only [if_true, declaredBindings_returnGlPositionVec3Right]
    rfl

/-- Appending different node ids to the same mangled stem yields different
identifiers. -/
theorem mangle_suffix_injective (x a b : String) (h : a ≠ b) :
    x ++ "_" ++ a ≠ x ++ "_" ++ b := by
  intro hc
  apply h
  have hd := congrArg String.data hc
  simp only [String.data_append] at hd
  exact String.ext (List.append_cancel_left hd)

/-- C2, counterexample: under the three → babylon source hack
(`graph.ts` lines 238–242) a fragment node declaring `vUv` does **not**
contribute `vUv_<id>` to the merged program: the binding is renamed to
`vMainUV1` before mangling, so the produced tree declares `vMainUV1_1`
although `vUv` is declared in the source and is not preserved. -/
theorem c2_mangling_counterexample :
    ("vUv" ∈ declaredBindings srcVUv ∧ babylonEngineData.preserve.contains "vUv" = false)
    ∧ (shaderFragmentProduceAst babylonEngineData testGraph nThree1 []).map declaredBindings =
        .ok ["vMainUV1_1"]
    ∧ "vUv_1" ∉ (["vMainUV1_1"] : List String) :=
  ⟨⟨by decide, rfl⟩, rfl, by decide⟩

/-- C2 (amended): for two distinct nodes declaring the same bare identifier
`x`, with `x` outside the engine's preserved set, the fragment parser —
provided neither node triggers the three → babylon rename hack (`originalEngine
= "three"` compiled by the `babylon` engine, which substitutes `vUv`/`vNormal`
before mangling) — and the vertex parser (unconditionally) rename the declared
binding to `x_<id1>` and `x_<id2>`, two distinct identifiers, never a
collision; every identifier in the engine's preserved set survives both
parsers unrenamed. -/
theorem c2_mangling_uniqueness
    (ed : EngineData) (g1 g2 : Graph) (n1 n2 : Node) (es1 es2 : List Edge)
    (s1 s2 : GAst) (x : String) (a1 a2 b1 b2 : GAst)
    (hs1 : n1.source = some s1) (hs2 : n2.source = some s2)
    (hid : n1.id ≠ n2.id)
    (hx1 : x ∈ declaredBindings s1) (hx2 : x ∈ declaredBindings s2)
    (hpres : ed.preserve.contains x = false)
    (hhack1 : ¬(n1.originalEngine = some "three" ∧ ed.name = "babylon"))
    (hhack2 : ¬(n2.originalEngine = some "three" ∧ ed.name = "babylon"))
    (h1 : shaderFragmentProduceAst ed g1 n1 es1 = .ok a1)
    (h2 : shaderFragmentProduceAst ed g2 n2 es2 = .ok a2)
    (hv1 : shaderVertexProduceAst ed g1 n1 es1 = .ok b1)
    (hv2 : shaderVertexProduceAst ed g2 n2 es2 = .ok b2) :
    ((x ++ "_" ++ n1.id) ∈ declaredBindings a1 ∧ (x ++ "_" ++ n2.id) ∈ declaredBindings a2
      ∧ (x ++ "_" ++ n1.id) ∈ declaredBindings b1 ∧ (x ++ "_" ++ n2.id) ∈ declaredBindings b2)
    ∧ x ++ "_" ++ n1.id ≠ x ++ "_" ++ n2.id
    ∧ (∀ y, ed.preserve.contains y = true →
        (y ∈ declaredBindings s1 → y ∈ declaredBindings a1 ∧ y ∈ declaredBindings b1)
        ∧ (y ∈ declaredBindings s2 → y ∈ declaredBindings a2 ∧ y ∈ declaredBindings b2)) := by
  have da1 := declaredBindings_shaderFragmentProduceAst ed g1 n1 es1 s1 a1 hs1 hhack1 h1
  have da2 := declaredBindings_shaderFragmentProduceAst ed g2 n2 es2 s2 a2 hs2 hhack2 h2
  have db1 := declaredBindings_shaderVertexProduceAst ed g1 n1 es1 s1 b1 hs1 hv1
  have db2 := declaredBindings_shaderVertexProduceAst ed g2 n2 es2 s2 b2 hs2 hv2
  have hmangle : ∀ n : Node, mangleMapper ed n x = x ++ "_" ++ n.id := by
    intro n
    simp only [mangleMapper, hpres, Bool.false_eq_true, if_false]
  refine ⟨⟨?_, ?_, ?_, ?_⟩, mangle_suffix_injective x n1.id n2.id hid, ?_⟩
  · rw [da1]; exact List.mem_map.mpr ⟨x, hx1, hmangle n1⟩
  · rw [da2]; exact List.mem_map.mpr ⟨x, hx2, hmangle n2⟩
  · rw [db1]; exact List.mem_map.mpr ⟨x, hx1, hmangle n1⟩
  · rw [db2]; exact List.mem_map.mpr ⟨x, hx2, hmangle n2⟩
  · intro y hy
    have hmy : ∀ n : Node, mangleMapper ed n y = y := by
      intro n
      simp only [mangleMapper, hy, if_true]
    refine ⟨fun hmem => ⟨?_, ?_⟩, fun hmem => ⟨?_, ?_⟩⟩
    · rw [da1]; exact List.mem_map.mpr ⟨y, hmem, hmy n1⟩
    · rw [db1]; exact List.mem_map.mpr ⟨y, hmem, hmy n1⟩
    · rw [da2]; exact List.mem_map.mpr ⟨y, hmem, hmy n2⟩
    · rw [db2]; exact List.mem_map.mpr ⟨y, hmem, hmy n2⟩

/-- C2 witness: two nodes both declaring the uniform `xcol`, compiled through
both shader parsers: the mangled names are present and distinct. -/
theorem c2_mangling_uniqueness_witness :
    (("xcol" ++ "_" ++ nX1.id) ∈ declaredBindings c2a1
      ∧ ("xcol" ++ "_" ++ nX2.id) ∈ declaredBindings c2a2
      ∧ ("xcol" ++ "_" ++ nX1.id) ∈ declaredBindings c2b1
      ∧ ("xcol" ++ "_" ++ nX2.id) ∈ declaredBindings c2b2)
    ∧ "xcol" ++ "_" ++ nX1.id ≠ "xcol" ++ "_" ++ nX2.id :=
  ⟨(c2_mangling_uniqueness testEngine.data testGraph testGraph nX1 nX2 [] [] srcX srcX "xcol"
      c2a1 c2a2 c2b1 c2b2 rfl rfl (by decide) (by decide) (by decide) rfl
      (by rintro ⟨h, -⟩; cases h) (by rintro ⟨h, -⟩; cases h)
      rfl rfl rfl rfl).1,
   (c2_mangling_uniqueness testEngine.data testGraph testGraph nX1 nX2 [] [] srcX srcX "xcol"
      c2a1 c2a2 c2b1 c2b2 rfl rfl (by decide) (by decide) (by decide) rfl
      (by rintro ⟨h, -⟩; cases h) (by rintro ⟨h, -⟩; cases h)
      rfl rfl rfl rfl).2.1⟩

mutual
theorem identPathsE_eq_nil_of (name : String) :
    ∀ (e : Expr) (p : List Nat), name ∉ exprIdents e → identPathsE name p e = []
  | .ident n, p, h => by
      have hne : (n == name) = false := by
        simp only [exprIdents, List.mem_singleton] at h
        exact beq_false_of_ne (fun hh => h (hh ▸ rfl))
      simp [identPathsE, hne]
  | .binop op l r, p, h => by
      simp only [exprIdents, List.mem_append] at h
      push_neg at h
      simp [identPathsE, identPathsE_eq_nil_of name l (p ++ [0]) h.1,
        identPathsE_eq_nil_of name r (p ++ [1]) h.2]
  | .call fn args, p, h => by
      simp only [exprIdents] at h
      simp [identPathsE, identPathsArgs_eq_nil_of name args p 0 h]

theorem identPathsArgs_eq_nil_of (name : String) :
    ∀ (args : ExprList) (p : List Nat) (i : Nat),
      name ∉ exprIdentsList args → identPathsArgs name p i args = []
  | .nil, _, _, _ => rfl
  | .cons e es, p, i, h => by
      simp only [exprIdentsList, List.mem_append] at h
      push_neg at h
      simp [identPathsArgs, identPathsE_eq_nil_of name e (p ++ [i]) h.1,
        identPathsArgs_eq_nil_of name es p (i + 1) h.2]
end

/-- C3, counterexample: with 27 connected edges — one more than the alphabet
— the synthesized expression does not chain 27 alphabet letters: the 27th
placeholder is `charAt(26)`, the empty string, which is not an alphabet
letter (in the real pipeline the generated text `... + z + ` does not even
parse). -/
theorem c3_binary_produceAst_counterexample :
    (binaryProduceAst "+" testEngine.data testGraph outF c3edges27).map
        (fun g => match g with | .program [.exprTL e] => exprIdents e | _ => []) =
      .ok c3idents27
    ∧ "" ∈ c3idents27
    ∧ "" ∉ alphabet.map (fun c => String.mk [c]) :=
  ⟨rfl, by decide, by decide⟩

/-- C3 (amended): for `1 ≤ k ≤ 26` connected input edges the binary parser
synthesizes an expression chaining exactly the first `k` alphabet letters —
assigned in edge order — joined by the node's operator (`k - 1` operator
occurrences); with 0 connected edges and operator `+` it produces exactly
`a + b`.  Beyond 26 edges the placeholders run off the alphabet (see the
counterexample). -/
theorem c3_binary_produceAst_chain
    (op : String) (ed : EngineData) (graph : Graph) (node : Node)
    (edges : List Edge) (k : Nat)
    (hk : edges.length = k) (hk1 : 1 ≤ k) (hk26 : k ≤ 26)
    (hop : op = "+" ∨ op = "*") :
    (∃ e, binaryProduceAst op ed graph node edges = .ok (.program [.exprTL e])
      ∧ exprIdents e = (List.range k).map alphabetCharAt
      ∧ exprOps e = List.replicate (k - 1) op)
    ∧ binaryProduceAst "+" ed graph node [] =
        .ok (.program [.exprTL (.binop "+" (.ident "a") (.ident "b"))]) :=
  ⟨binaryProduceAst_chain_spec op ed graph node edges k hk hk1 hk26 hop, rfl⟩

/-- C3 witness: three connected edges yield `a + b + c`. -/
theorem c3_binary_produceAst_chain_witness :
    ∃ e, binaryProduceAst "+" testEngine.data testGraph outF [edgeF, edgeF, edgeF] =
        .ok (.program [.exprTL e])
      ∧ exprIdents e = (List.range 3).map alphabetCharAt
      ∧ exprOps e = List.replicate (3 - 1) "+" :=
  (c3_binary_produceAst_chain "+" testEngine.data testGraph outF [edgeF, edgeF, edgeF] 3
    rfl (by omega) (by omega) (Or.inl rfl)).1

/-- C9, counterexample: with one connected edge the synthesized expression
holds a single placeholder identifier (`a`), not `max(1, 2) = 2` of them as
the claim states; and beyond the alphabet the slot keys degenerate: with 27
connected edges the extra slot's key is `charAt(27)`, the empty string, which
**does** occur in the synthesized expression (whose 27th placeholder is
`charAt(26) = ""`), so that slot's filler finds a match and succeeds instead
of raising the fatal error — and the key list holds the empty-string key
twice, which the JS object built by `reduce` collapses into one property. -/
theorem c9_binary_findInputs_counterexample :
    ((binaryProduceAst "+" testEngine.data testGraph outF [edgeF]).map
        (fun g => match g with | .program [.exprTL e] => (exprIdents e).length | _ => 0) =
      .ok 1
    ∧ max 1 2 = 2 ∧ (1 : Nat) ≠ 2)
    ∧ (alphabetCharAt 27 = ""
    ∧ (match c27g with
        | .program [.exprTL e] => exprIdents e
        | _ => []).getLast? = some ""
    ∧ (binaryLetterFill (alphabetCharAt 27) (.ident "z") c27g).isOk = true
    ∧ ((List.range (max (27 + 1) 2)).map alphabetCharAt).count "" = 2) :=
  ⟨⟨rfl, rfl, by decide⟩, ⟨rfl, rfl, rfl, by decide⟩⟩

/-- C9 (amended): for `k ≤ 25` connected input edges `findInputs` returns
exactly `max(k + 1, 2)` filler slots keyed by the first `max(k + 1, 2)`
alphabet letters — one more slot than the number of connected edges whenever
`k ≥ 1` — while the synthesized expression contains `k` placeholder
identifiers for `k ≥ 1` (2 for `k = 0`, not `max(k, 2)` as claimed — see the
counterexample at `k = 1`), so invoking the extra slot's filler finds no
matching identifier and raises the fatal `Im drunk ...` error.  Beyond 25
edges the alphabet runs out: slot keys from index 26 on are `charAt` out of
range, the empty string (duplicates a JS object collapses), and at `k = 27`
the extra slot's filler finds the expression's own empty placeholder and
succeeds — see the counterexample. -/
theorem c9_binary_findInputs_slots
    (node : Node) (ast : GAst) (edges : List Edge) (k : Nat) (hk : edges.length = k)
    (hk26 : k + 1 ≤ 26) :
    (∃ inputs, binaryFindInputs node ast edges = .ok inputs
      ∧ inputs.map Prod.fst = (List.range (max (k + 1) 2)).map alphabetCharAt)
    ∧ ∀ (op : String) (ed : EngineData) (graph : Graph) (node2 : Node) (g : GAst),
        1 ≤ k → (op = "+" ∨ op = "*") →
        binaryProduceAst op ed graph node2 edges = .ok g →
        ∀ e0, (binaryLetterFill (alphabetCharAt k) e0 g).isOk = false := by
  constructor
  · refine ⟨_, rfl, ?_⟩
    simp only [binaryFindInputs, hk, List.map_map]
    rfl
  · intro op ed graph node2 g hk1 hop hprod e0
    obtain ⟨e, heq, hide, _⟩ :=
      binaryProduceAst_chain_spec op ed graph node2 edges k hk hk1 (by omega) hop
    rw [hprod] at heq
    cases heq
    have hnotin : alphabetCharAt k ∉ exprIdents e := by
      rw [hide]
      rintro hmem
      rcases List.mem_map.mp hmem with ⟨i, hi, heqc⟩
      have hik : i < k := List.mem_range.mp hi
      have := alphabetCharAt_inj i (by omega) k (by omega) heqc
      omega
    have hempty := identPathsE_eq_nil_of (alphabetCharAt k) e [0, 0] hnotin
    have hip : identPaths (alphabetCharAt k) (GAst.program [.exprTL e]) = [] := by
      simp [identPaths, hempty]
    simp only [binaryLetterFill, hip]
    rfl

/-- C9 witness: two connected edges yield the three slots `a`, `b`, `c`, and
invoking the extra slot `c`'s filler on the produced `a + b` program fails. -/
theorem c9_binary_findInputs_slots_witness :
    (∃ inputs, binaryFindInputs outF GAst.empty [edgeF, edgeF] = .ok inputs
      ∧ inputs.map Prod.fst = (List.range (max (2 + 1) 2)).map alphabetCharAt)
    ∧ (binaryLetterFill (alphabetCharAt 2) (.ident "z") c9g).isOk = false :=
  ⟨(c9_binary_findInputs_slots outF GAst.empty [edgeF, edgeF] 2 rfl (by omega)).1,
   (c9_binary_findInputs_slots outF GAst.empty [edgeF, edgeF] 2 rfl (by omega)).2 "+"
     testEngine.data testGraph outF c9g (by omega) (Or.inl rfl) rfl (.ident "z")⟩

/-- Index-generalized characterization of the Uniform strategy's descriptor
list (the fold index only feeds the fillers, not the descriptors). -/
theorem uniformDescs_aux (graphNode : Node) :
    ∀ (tls : List TopLevel) (n : Nat),
      (((List.enumFrom n tls).map (fun q =>
        match q.snd with
        | TopLevel.uniformDecl quals typeTok names =>
            if quals.contains "uniform" && typeTok != "sampler2D" then
              names.map (fun name =>
                ((⟨name, name, "data", true⟩ : NodeInputDesc),
                  uniformFillerModel name graphNode q.fst names.length))
            else []
        | _ => [])).flatten).map Prod.fst =
      tls.flatMap (fun tl =>
        match tl with
        | TopLevel.uniformDecl quals typeTok names =>
            if quals.contains "uniform" && typeTok != "sampler2D" then
              names.map (fun name => (⟨name, name, "data", true⟩ : NodeInputDesc))
            else []
        | _ => []) := by
  intro tls
  induction tls with
  | nil => intro n; rfl
  | cons tl rest ih =>
      intro n
      simp only [List.enumFrom, List.map_cons, List.flatten_cons, List.map_append,
        List.flatMap_cons, ih (n + 1)]
      congr 1
      cases tl with
      | fn _ _ => rfl
      | exprTL _ => rfl
      | uniformDecl quals typeTok names =>
          by_cases h : (quals.contains "uniform" && typeTok != "sampler2D") = true
          · simp only [h, if_true, List.map_map]
            rfl
          · rw [Bool.not_eq_true] at h
            simp only [h, Bool.false_eq_true, if_false, List.map_nil]

/-- C5, counterexample: a uniform declaration of type `samplerCube` — a
sampler type — still produces an input: the code excludes only the literal
type token `sampler2D`, not every sampler type as the claim states. -/
theorem c5_uniform_counterexample :
    uniformStrategyDescs nodeF (.program [.uniformDecl ["uniform"] "samplerCube" ["env"]]) =
      [⟨"env", "env", "data", true⟩]
    ∧ "samplerCube" ∈ specSamplerTypes
    ∧ uniformStrategyDescs nodeF (.program [.uniformDecl ["uniform"] "sampler2D" ["tx"]]) = [] :=
  ⟨rfl, by decide, rfl⟩

/-- C5 (amended): applied to a program, the Uniform strategy produces, for
each top-level declaration statement qualified `uniform` whose declared type
token is not the literal `sampler2D`, one input per declared name with
category `"data"` and `bakeable = true`, and nothing for any other top-level
statement — in particular nothing for `sampler2D` uniforms, but uniforms of
the other sampler types do produce inputs (see the counterexample). -/
theorem c5_uniform_inputs (graphNode : Node) (tls : List TopLevel) :
    uniformStrategyDescs graphNode (.program tls) =
      tls.flatMap (fun tl =>
        match tl with
        | TopLevel.uniformDecl quals typeTok names =>
            if quals.contains "uniform" && typeTok != "sampler2D" then
              names.map (fun name => (⟨name, name, "data", true⟩ : NodeInputDesc))
            else []
        | _ => []) := by
  simp only [uniformStrategyDescs, uniformStrategyInputs]
  exact uniformDescs_aux graphNode tls 0

/-! ### Collector soundness and in-place replacement (C4) -/

mutual
theorem callsE_sound (pred : String → Bool) (skip : Bool) :
    ∀ (e : Expr) (p : List Nat) (q : List Nat × Expr), q ∈ callsE pred skip p e →
      ∃ rest, q.fst = p ++ rest ∧ exprAtE e rest = some q.snd ∧
        ∃ fn args, q.snd = .call fn args ∧ pred fn = true
  | .ident n, p, q, h => by simp [callsE] at h
  | .binop op l r, p, q, h => by
      simp only [callsE, List.mem_append] at h
      rcases h with h | h
      · obtain ⟨rest, hq, hat, hcall⟩ := callsE_sound pred skip l (p ++ [0]) q h
        exact ⟨0 :: rest, by simp [hq, List.append_assoc], hat, hcall⟩
      · obtain ⟨rest, hq, hat, hcall⟩ := callsE_sound pred skip r (p ++ [1]) q h
        exact ⟨1 :: rest, by simp [hq, List.append_assoc], hat, hcall⟩
  | .call fn args, p, q, h => by
      simp only [callsE] at h
      by_cases hp : pred fn = true
      · rw [if_pos hp] at h
        rcases List.mem_cons.mp h with rfl | h
        · exact ⟨[], by simp, rfl, fn, args, rfl, hp⟩
        · by_cases hs : skip
          · rw [if_pos hs] at h
            simp at h
          · rw [if_neg hs] at h
            obtain ⟨j, rest, _, hq, hat, hcall⟩ := callsArgs_sound pred skip args p 0 q h
            refine ⟨j :: rest, by simp [hq, List.append_assoc], ?_, hcall⟩
            simpa using hat
      · rw [if_neg hp] at h
        obtain ⟨j, rest, _, hq, hat, hcall⟩ := callsArgs_sound pred skip args p 0 q h
        refine ⟨j :: rest, by simp [hq, List.append_assoc], ?_, hcall⟩
        simpa using hat

theorem callsArgs_sound (pred : String → Bool) (skip : Bool) :
    ∀ (args : ExprList) (p : List Nat) (i : Nat) (q : List Nat × Expr),
      q ∈ callsArgs pred skip p i args →
      ∃ j rest, i ≤ j ∧ q.fst = p ++ j :: rest ∧
        exprAtArgs args (j - i) rest = some q.snd ∧
        ∃ fn args2, q.snd = .call fn args2 ∧ pred fn = true
  | .nil, p, i, q, h => by simp [callsArgs] at h
  | .cons e es, p, i, q, h => by
      simp only [callsArgs, List.mem_append] at h
      rcases h with h | h
      · obtain ⟨rest, hq, hat, hcall⟩ := callsE_sound pred skip e (p ++ [i]) q h
        refine ⟨i, rest, le_refl i, by simp [hq, List.append_assoc], ?_, hcall⟩
        simpa [Nat.sub_self] using hat
      · obtain ⟨j, rest, hij, hq, hat, hcall⟩ := callsArgs_sound pred skip es p (i + 1) q h
        refine ⟨j, rest, by omega, hq, ?_, hcall⟩
        rw [show j - i = (j - (i + 1)) + 1 from by omega]
        exact hat
end

theorem callsStmt_sound (pred : String → Bool) (skip : Bool) (s : Stmt) (p : List Nat)
    (q : List Nat × Expr) (h : q ∈ callsStmt pred skip p s) :
    ∃ rest, q.fst = p ++ rest ∧ exprAtStmt s rest = some q.snd ∧
      ∃ fn args, q.snd = .call fn args ∧ pred fn = true := by
  cases s with
  | assign lhs rhs =>
      obtain ⟨rest, hq, hat, hcall⟩ := callsE_sound pred skip rhs (p ++ [0]) q h
      exact ⟨0 :: rest, by simp [hq, List.append_assoc], hat, hcall⟩
  | exprStmt e =>
      obtain ⟨rest, hq, hat, hcall⟩ := callsE_sound pred skip e (p ++ [0]) q h
      exact ⟨0 :: rest, by simp [hq, List.append_assoc], hat, hcall⟩
  | ret e =>
      obtain ⟨rest, hq, hat, hcall⟩ := callsE_sound pred skip e (p ++ [0]) q h
      exact ⟨0 :: rest, by simp [hq, List.append_assoc], hat, hcall⟩
  | raw t => simp [callsStmt] at h

theorem enumFrom_mem_get? {α : Type _} :
    ∀ (l : List α) (n : Nat) (x : Nat × α), x ∈ List.enumFrom n l →
      n ≤ x.fst ∧ l.get? (x.fst - n) = some x.snd := by
  intro l
  induction l with
  | nil => intro n x h; simp [List.enumFrom] at h
  | cons a rest ih =>
      intro n x h
      rcases List.mem_cons.mp h with rfl | h
      · exact ⟨le_refl n, by simp⟩
      · obtain ⟨hle, hget⟩ := ih (n + 1) x h
        refine ⟨by omega, ?_⟩
        rw [show x.fst - n = (x.fst - (n + 1)) + 1 from by omega]
        exact hget

theorem callPaths_sound (pred : String → Bool) (skip : Bool) (g : GAst) :
    ∀ q ∈ callPaths pred skip g,
      exprAt? g q.fst = some q.snd ∧ ∃ fn args, q.snd = .call fn args ∧ pred fn = true := by
  intro q hq
  cases g with
  | empty => simp [callPaths] at hq
  | exprAst e =>
      obtain ⟨rest, hqf, hat, hcall⟩ := callsE_sound pred skip e [] q hq
      refine ⟨?_, hcall⟩
      simp only [exprAt?]
      rw [hqf]
      simpa using hat
  | program tls =>
      simp only [callPaths] at hq
      rw [List.mem_flatten] at hq
      obtain ⟨block, hblock, hqb⟩ := hq
      rw [List.mem_map] at hblock
      obtain ⟨⟨i, tl⟩, hx, rfl⟩ := hblock
      have hx' : (i, tl) ∈ List.enumFrom 0 tls := hx
      obtain ⟨-, hget⟩ := enumFrom_mem_get? tls 0 (i, tl) hx'
      rw [Nat.sub_zero] at hget
      cases tl with
      | uniformDecl q' t' ns' => simp at hqb
      | fn name body =>
          rw [List.mem_flatten] at hqb
          obtain ⟨blk2, hblk2, hqb2⟩ := hqb
          rw [List.mem_map] at hblk2
          obtain ⟨⟨j, s⟩, hjs, rfl⟩ := hblk2
          have hjs' : (j, s) ∈ List.enumFrom 0 body := hjs
          obtain ⟨-, hgets⟩ := enumFrom_mem_get? body 0 (j, s) hjs'
          rw [Nat.sub_zero] at hgets
          obtain ⟨rest, hqf, hat, hcall⟩ := callsStmt_sound pred skip s [i, j] q hqb2
          refine ⟨?_, hcall⟩
          rw [hqf]
          simp only [List.cons_append, List.nil_append, exprAt?]
          rw [hget]
          simp only [Option.some_bind]
          have hgets2 : body[j]? = some s := by
            rw [← List.get?_eq_getElem?]
            exact hgets
          simp [exprAtTL, hgets2, hat]
      | exprTL e =>
          obtain ⟨rest, hqf, hat, hcall⟩ := callsE_sound pred skip e [i, 0] q hqb
          refine ⟨?_, hcall⟩
          rw [hqf]
          simp only [List.cons_append, List.nil_append, exprAt?]
          rw [hget]
          simp [exprAtTL, hat]

mutual
theorem exprAtE_replaceE : ∀ (e : Expr) (p : List Nat) (x : Expr),
    (exprAtE e p).isSome = true → exprAtE (replaceE e p x) p = some x
  | .ident _, [], _, _ => by simp [replaceE, exprAtE]
  | .binop _ _ _, [], _, _ => by simp [replaceE, exprAtE]
  | .call _ _, [], _, _ => by simp [replaceE, exprAtE]
  | .ident n, _ :: _, x, h => Bool.noConfusion h
  | .binop op l r, 0 :: rest, x, h => exprAtE_replaceE l rest x h
  | .binop op l r, 1 :: rest, x, h => exprAtE_replaceE r rest x h
  | .binop op l r, (_ + 2) :: rest, x, h => Bool.noConfusion h
  | .call fn args, i :: rest, x, h => exprAtArgs_replaceEArgs args i rest x h

theorem exprAtArgs_replaceEArgs : ∀ (args : ExprList) (i : Nat) (rest : List Nat) (x : Expr),
    (exprAtArgs args i rest).isSome = true →
    exprAtArgs (replaceEArgs args i rest x) i rest = some x
  | .nil, _, _, _, h => Bool.noConfusion h
  | .cons e _, 0, rest, x, h => exprAtE_replaceE e rest x h
  | .cons _ es, i + 1, rest, x, h => exprAtArgs_replaceEArgs es i rest x h
end

theorem exprAtStmt_replaceStmt : ∀ (s : Stmt) (p : List Nat) (x : Expr),
    (exprAtStmt s p).isSome = true → exprAtStmt (replaceStmt s p x) p = some x
  | .assign _ rhs, 0 :: rest, x, h => exprAtE_replaceE rhs rest x h
  | .exprStmt e, 0 :: rest, x, h => exprAtE_replaceE e rest x h
  | .ret e, 0 :: rest, x, h => exprAtE_replaceE e rest x h
  | .assign _ _, [], _, h => Bool.noConfusion h
  | .assign _ _, (_ + 1) :: _, _, h => Bool.noConfusion h
  | .exprStmt _, [], _, h => Bool.noConfusion h
  | .exprStmt _, (_ + 1) :: _, _, h => Bool.noConfusion h
  | .ret _, [], _, h => Bool.noConfusion h
  | .ret _, (_ + 1) :: _, _, h => Bool.noConfusion h
  | .raw _, [], _, h => Bool.noConfusion h
  | .raw _, _ :: _, _, h => Bool.noConfusion h

theorem modifyNth_get? {α : Type _} (f : α → α) :
    ∀ (l : List α) (n : Nat), (modifyNth f l n).get? n = (l.get? n).map f
  | [], n => by cases n <;> rfl
  | a :: rest, 0 => rfl
  | a :: rest, n + 1 => modifyNth_get? f rest n

theorem exprAtTL_replaceTL : ∀ (tl : TopLevel) (p : List Nat) (x : Expr),
    (exprAtTL tl p).isSome = true → exprAtTL (replaceTL tl p x) p = some x := by
  intro tl p x h
  cases tl with
  | uniformDecl q t ns =>
      cases p with
      | nil => exact Bool.noConfusion h
      | cons j rest => exact Bool.noConfusion h
  | fn name body =>
      cases p with
      | nil => exact Bool.noConfusion h
      | cons j rest =>
          simp only [exprAtTL] at h ⊢
          simp only [replaceTL]
          cases hget : body.get? j with
          | none => rw [hget] at h; simp at h
          | some s =>
              rw [hget] at h
              simp only [Option.some_bind] at h
              simp only [exprAtTL, modifyNth_get? _ body j, hget, Option.map_some,
                Option.some_bind]
              exact exprAtStmt_replaceStmt s rest x h
  | exprTL e =>
      cases p with
      | nil => exact Bool.noConfusion h
      | cons j rest =>
          cases j with
          | zero => exact exprAtE_replaceE e rest x h
          | succ j' => exact Bool.noConfusion h

theorem exprAt?_replaceExprAt : ∀ (g : GAst) (p : List Nat) (x : Expr),
    (exprAt? g p).isSome = true → exprAt? (replaceExprAt g p x) p = some x := by
  intro g p x h
  cases g with
  | empty =>
      cases p with
      | nil => exact Bool.noConfusion h
      | cons i rest => exact Bool.noConfusion h
  | exprAst e => exact exprAtE_replaceE e p x h
  | program tls =>
      cases p with
      | nil => exact Bool.noConfusion h
      | cons i rest =>
          simp only [exprAt?] at h ⊢
          simp only [replaceExprAt]
          cases hget : tls.get? i with
          | none => rw [hget] at h; simp at h
          | some tl =>
              rw [hget] at h
              simp only [Option.some_bind] at h
              simp only [exprAt?, modifyNth_get? _ tls i, hget, Option.map_some,
                Option.some_bind]
              exact exprAtTL_replaceTL tl rest x h

theorem get?_enumFrom {α : Type _} :
    ∀ (l : List α) (n i : Nat),
      (List.enumFrom n l).get? i = (l.get? i).map (fun a => (n + i, a)) := by
  intro l
  induction l with
  | nil => intro n i; cases i <;> rfl
  | cons a rest ih =>
      intro n i
      cases i with
      | zero => rfl
      | succ i' =>
          simp only [List.enumFrom, List.get?]
          rw [ih (n + 1) i']
          congr 1
          funext b
          simp
          omega

/-- C4, counterexample: in a tree with calls `texture2D(u)`, `texture2D(tex)`,
`texture2D(tex)` the two `tex` inputs are named `tex_1` and `tex_2` — the
suffix is the call's index in the overall call list — not `tex_0`/`tex_1` as
the claim's per-text occurrence indexing would give. -/
theorem c4_texture2d_counterexample :
    texInputNames texTree = ["u", "tex_1", "tex_2"]
    ∧ specTexInputNames texTree = ["u", "tex_0", "tex_1"]
    ∧ texInputNames texTree ≠ specTexInputNames texTree
    ∧ texInputNames texTreeSingle = ["tex2"] :=
  ⟨rfl, rfl, by decide, rfl⟩

/-- C4 (amended): every texture-sample call (legacy `texture2D` or modern
`texture` spelling) becomes one input; a call whose first-argument text
occurs more than once across the whole tree gets the name suffixed with the
call's index **in the overall call list** (not the per-text occurrence
index — see the counterexample); a text occurring exactly once keeps its
plain text as the name; descriptors are category `"code"`, non-bakeable, and
each input's filler replaces that call expression in place. -/
theorem c4_texture2d_inputs (node : Node) (ast : GAst) :
    (texture2DStrategyInputs node ast).length = (tex2DCalls ast).length
    ∧ (texture2DStrategyInputs node ast).map (fun q => q.fst.name) =
        (tex2DCalls ast).enum.map (fun q =>
          if ((tex2DCalls ast).map Prod.fst).count q.snd.fst > 1 then
            q.snd.fst ++ "_" ++ toString q.fst
          else q.snd.fst)
    ∧ (∀ q ∈ texture2DStrategyInputs node ast,
        q.fst.category = "code" ∧ q.fst.bakeable = false ∧ q.fst.id = q.fst.name)
    ∧ (∀ c ∈ tex2DCalls ast, ∃ fn args, exprAt? ast c.snd = some (.call fn args)
        ∧ (fn = "texture2D" ∨ fn = "texture") ∧ texArgText (.call fn args) = c.fst)
    ∧ (∀ i, i < (tex2DCalls ast).length → ∀ x g,
        ((texture2DStrategyInputs node ast).getD i dfltComputedInput).snd x g =
          replaceExprAt g ((tex2DCalls ast).getD i ("", [])).snd x)
    ∧ (∀ p x, (exprAt? ast p).isSome = true →
        exprAt? (replaceExprAt ast p x) p = some x) := by
  refine ⟨?_, ?_, ?_, ?_, ?_, ?_⟩
  · simp [texture2DStrategyInputs, List.enum_length]
  · simp only [texture2DStrategyInputs, List.map_map]
    rfl
  · intro q hq
    simp only [texture2DStrategyInputs, List.mem_map] at hq
    obtain ⟨r, _, rfl⟩ := hq
    exact ⟨rfl, rfl, rfl⟩
  · intro c hc
    simp only [tex2DCalls, List.mem_map] at hc
    obtain ⟨q, hq, rfl⟩ := hc
    obtain ⟨hat, fn, args, hcall, hpred⟩ :=
      callPaths_sound (fun fn => fn == "texture2D" || fn == "texture") false ast q hq
    refine ⟨fn, args, by rw [← hcall]; exact hat, ?_, by rw [← hcall]⟩
    have hp : (fn == "texture2D" || fn == "texture") = true := hpred
    simpa using hp
  · intro i hi x g
    cases hc : (tex2DCalls ast).get? i with
    | none =>
        rw [List.get?_eq_none] at hc
        omega
    | some c =>
        simp only [texture2DStrategyInputs, List.getD, List.get?_map]
        have : (tex2DCalls ast).enum.get? i = some (i, c) := by
          have := get?_enumFrom (tex2DCalls ast) 0 i
          rw [show List.enum (tex2DCalls ast) = List.enumFrom 0 (tex2DCalls ast) from rfl,
            this, hc]
          simp
        rw [this, hc]
        rfl
  · exact fun p x h => exprAt?_replaceExprAt ast p x h

/-- C4 witness: a single `texture2D(tex2)` call yields one input named
`tex2`. -/
theorem c4_texture2d_inputs_witness :
    (texture2DStrategyInputs nodeF texTreeSingle).map (fun q => q.fst.name) =
      (tex2DCalls texTreeSingle).enum.map (fun q =>
        if ((tex2DCalls texTreeSingle).map Prod.fst).count q.snd.fst > 1 then
          q.snd.fst ++ "_" ++ toString q.fst
        else q.snd.fst) :=
  (c4_texture2d_inputs nodeF texTreeSingle).2.1

/-- C10: `compileGraph` never mutates the input graph's edge list: the graph
returned as the post-state of the call is the input graph unchanged, and the
edge list handed to the vertex-side `compileNode` is a fresh append
`graph.edges ++ orphanEdges ...`, so `graph.edges` itself holds exactly the
edges it held before the call. -/
theorem c10_edges_unmutated (fuel : Nat) (ctx : EngineContextL) (engine : Engine)
    (graph : Graph) :
    ((compileGraph fuel ctx engine graph).map (fun t => t.2.2) =
      (compileGraph fuel ctx engine graph).map (fun _ => graph))
    ∧ ∀ fragmentIds vertexIds outputVert,
        vertexStageEdges graph fragmentIds vertexIds outputVert =
          graph.edges ++ orphanEdges graph fragmentIds vertexIds outputVert := by
  constructor
  · unfold compileGraph
    cases compileGraphInner fuel engine graph ctx.nodes <;> rfl
  · intro _ _ _
    rfl

end Shaderfrog
